import Mathlib

/-!
TMSU: the `merge` and `tags` commands.

A shallow embedding of `src/tmsu/cli/commands/merge.go` and
`src/tmsu/cli/commands/tags.go`.

* Go strings are Lean `String`s; `sort.Strings` orders by bytes, which for
  UTF-8 text is the code point order of `String`.
* The `tmsu/storage` package is not part of the sources.  Its operations are
  modelled from the interface table of the specification (section 6) over an
  explicit database value; every call is recorded in a call log and may be made
  to fail by a fault plan that maps the index of a call to an error text.
* `fmt.Errorf` values are kept as the call site together with its arguments
  (`MergeError`), with `MergeError.message` rendering the Go format string.
* `log.Print`, `log.Warn` and `log.Info(f)` append a `LogLine` to the output.
-/

namespace TMSU

/-! ## Data model -/

/-- A tag row: numeric identity and name (`database.Tag`). -/
structure Tag where
  Id : Nat
  Name : String
deriving DecidableEq, Repr

/-- An association row: file identity and tag identity (`database.FileTag`). -/
structure FileTag where
  FileId : Nat
  TagId : Nat
deriving DecidableEq, Repr

/-- The kind of an association. -/
inductive Kind where
  | Explicit
  | Implicit
deriving DecidableEq, Repr

/-- Modelled from the spec: the persistent state behind `tmsu/storage` (absent
from the sources), as the tag table and one association table per kind
(specification section 3). -/
structure Database where
  tags : List Tag
  explicitFileTags : List FileTag
  implicitFileTags : List FileTag
deriving DecidableEq, Repr

/-- The association table of one kind. -/
def Database.fileTags (db : Database) : Kind → List FileTag
  | .Explicit => db.explicitFileTags
  | .Implicit => db.implicitFileTags

/-- Modelled from the spec: `TagByName(name) -> Option<Tag>`, the tag of that
name or absence. -/
def Database.tagByName (db : Database) (name : String) : Option Tag :=
  db.tags.find? (fun t => decide (t.Name = name))

/-- Modelled from the spec: the associations of one kind for a tag id, in table
order. -/
def Database.fileTagsByTagId (db : Database) (k : Kind) (tagId : Nat) : List FileTag :=
  (db.fileTags k).filter (fun ft => decide (ft.TagId = tagId))

/-- Idempotent insertion of a row in an association table. -/
def insertFileTag (rows : List FileTag) (ft : FileTag) : List FileTag :=
  if ft ∈ rows then rows else rows ++ [ft]

/-- Modelled from the spec: idempotent association insert. -/
def Database.addFileTag (db : Database) (k : Kind) (fileId tagId : Nat) : Database :=
  match k with
  | .Explicit => { db with explicitFileTags := insertFileTag db.explicitFileTags ⟨fileId, tagId⟩ }
  | .Implicit => { db with implicitFileTags := insertFileTag db.implicitFileTags ⟨fileId, tagId⟩ }

/-- Modelled from the spec: bulk removal of the associations of one kind by tag
id. -/
def Database.removeFileTagsByTagId (db : Database) (k : Kind) (tagId : Nat) : Database :=
  match k with
  | .Explicit =>
    { db with explicitFileTags := db.explicitFileTags.filter (fun ft => decide (ft.TagId ≠ tagId)) }
  | .Implicit =>
    { db with implicitFileTags := db.implicitFileTags.filter (fun ft => decide (ft.TagId ≠ tagId)) }

/-- Modelled from the spec: `DeleteTag(tagId)` removes the tag identity. -/
def Database.deleteTag (db : Database) (tagId : Nat) : Database :=
  { db with tags := db.tags.filter (fun t => decide (t.Id ≠ tagId)) }

/-- The data model invariant of specification section 3 on the tag table: a tag
id identifies one tag, and tag names are unique. -/
structure Database.Consistent (db : Database) : Prop where
  ids : (db.tags.map Tag.Id).Nodup
  names : (db.tags.map Tag.Name).Nodup

/-! ## Store calls, faults and logging -/

/-- The store operations a command can invoke. -/
inductive Call where
  | Open
  | TagByName (name : String)
  | ExplicitFileTagsByTagId (tagId : Nat)
  | ImplicitFileTagsByTagId (tagId : Nat)
  | AddExplicitFileTag (fileId tagId : Nat)
  | AddImplicitFileTag (fileId tagId : Nat)
  | RemoveExplicitFileTagsByTagId (tagId : Nat)
  | RemoveImplicitFileTagsByTagId (tagId : Nat)
  | DeleteTag (tagId : Nat)
deriving DecidableEq, Repr

/-- A call that changes the database when it succeeds. -/
def Call.mutates : Call → Bool
  | .AddExplicitFileTag _ _ => true
  | .AddImplicitFileTag _ _ => true
  | .RemoveExplicitFileTagsByTagId _ => true
  | .RemoveImplicitFileTagsByTagId _ => true
  | .DeleteTag _ => true
  | _ => false

/-- A fault plan: the error, if any, returned by the store call with a given
index (the number of store calls made before it). -/
abbrev Faults := Nat → Option String

/-- The fault plan in which every store call succeeds. -/
def noFaults : Faults := fun _ => none

/-- One line written through the `tmsu/log` package. -/
inductive LogLine where
  | print (text : String)
  | warn (text : String)
  | info (text : String)
deriving DecidableEq, Repr

/-- The state a command runs against: the database, the store calls made so far
and the lines logged so far. -/
structure World where
  db : Database
  calls : List Call
  log : List LogLine
deriving DecidableEq, Repr

/-- Record a store call. -/
def World.record (w : World) (c : Call) : World :=
  { w with calls := w.calls ++ [c] }

/-- `log.Infof` under `if command.verbose`. -/
def World.infoIf (w : World) (verbose : Bool) (text : String) : World :=
  if verbose then { w with log := w.log ++ [LogLine.info text] } else w

/-- A store call that reads: it is recorded, and either fails with the planned
error or returns the value read. -/
def World.read {α : Type} (φ : Faults) (w : World) (c : Call) (value : Database → α) :
    Except String α × World :=
  match φ w.calls.length with
  | some e => (.error e, w.record c)
  | none => (.ok (value w.db), w.record c)

/-- A store call that writes: it is recorded, and either fails with the planned
error leaving the database as it was, or applies its effect. -/
def World.write (φ : Faults) (w : World) (c : Call) (effect : Database → Database) :
    Except String Unit × World :=
  match φ w.calls.length with
  | some e => (.error e, w.record c)
  | none => (.ok (), { w.record c with db := effect w.db })

/-- Modelled from the spec: `storage.Open()`. -/
def Open (φ : Faults) (w : World) : Except String Unit × World :=
  w.read φ Call.Open (fun _ => ())

/-- Modelled from the spec: `store.TagByName(name)`. -/
def TagByName (φ : Faults) (w : World) (name : String) : Except String (Option Tag) × World :=
  w.read φ (Call.TagByName name) (fun db => db.tagByName name)

/-- Modelled from the spec: `store.ExplicitFileTagsByTagId(tagId)`. -/
def ExplicitFileTagsByTagId (φ : Faults) (w : World) (tagId : Nat) :
    Except String (List FileTag) × World :=
  w.read φ (Call.ExplicitFileTagsByTagId tagId) (fun db => db.fileTagsByTagId .Explicit tagId)

/-- Modelled from the spec: `store.ImplicitFileTagsByTagId(tagId)`. -/
def ImplicitFileTagsByTagId (φ : Faults) (w : World) (tagId : Nat) :
    Except String (List FileTag) × World :=
  w.read φ (Call.ImplicitFileTagsByTagId tagId) (fun db => db.fileTagsByTagId .Implicit tagId)

/-- Modelled from the spec: `store.AddExplicitFileTag(fileId, tagId)`. -/
def AddExplicitFileTag (φ : Faults) (w : World) (fileId tagId : Nat) : Except String Unit × World :=
  w.write φ (Call.AddExplicitFileTag fileId tagId) (fun db => db.addFileTag .Explicit fileId tagId)

/-- Modelled from the spec: `store.AddImplicitFileTag(fileId, tagId)`. -/
def AddImplicitFileTag (φ : Faults) (w : World) (fileId tagId : Nat) : Except String Unit × World :=
  w.write φ (Call.AddImplicitFileTag fileId tagId) (fun db => db.addFileTag .Implicit fileId tagId)

/-- Modelled from the spec: `store.RemoveExplicitFileTagsByTagId(tagId)`. -/
def RemoveExplicitFileTagsByTagId (φ : Faults) (w : World) (tagId : Nat) :
    Except String Unit × World :=
  w.write φ (Call.RemoveExplicitFileTagsByTagId tagId)
    (fun db => db.removeFileTagsByTagId .Explicit tagId)

/-- Modelled from the spec: `store.RemoveImplicitFileTagsByTagId(tagId)`. -/
def RemoveImplicitFileTagsByTagId (φ : Faults) (w : World) (tagId : Nat) :
    Except String Unit × World :=
  w.write φ (Call.RemoveImplicitFileTagsByTagId tagId)
    (fun db => db.removeFileTagsByTagId .Implicit tagId)

/-- Modelled from the spec: `store.DeleteTag(tagId)`. -/
def DeleteTag (φ : Faults) (w : World) (tagId : Nat) : Except String Unit × World :=
  w.write φ (Call.DeleteTag tagId) (fun db => db.deleteTag tagId)

/-- `cli.Options` as the list of option names given; `HasOption` is membership. -/
abbrev Options := List String

/-- `options.HasOption(name)`. -/
def HasOption (options : Options) (name : String) : Bool :=
  decide (name ∈ options)

/-! ## `merge.go` -/

/-- The `fmt.Errorf` call sites of `MergeCommand.Exec` with their arguments. -/
inductive MergeError where
  | tooFewArguments
  | couldNotOpenStorage (err : String)
  | couldNotRetrieveTag (tagName : String) (err : String)
  | noSuchTag (tagName : String)
  | sameNames
  | couldNotRetrieveExplicit (sourceTagName : String) (err : String)
  | couldNotRetrieveImplicit (sourceTagName : String) (err : String)
  | couldNotAddExplicit (destTagName : String) (fileId : Nat) (err : String)
  | couldNotAddImplicit (destTagName : String) (fileId : Nat) (err : String)
  | couldNotRemoveExplicit (sourceTagName : String) (err : String)
  | couldNotRemoveImplicit (sourceTagName : String) (err : String)
  | couldNotDeleteTag (sourceTagName : String) (err : String)
deriving DecidableEq, Repr

/-- The text `fmt.Errorf` produces at each call site. -/
def MergeError.message : MergeError → String
  | .tooFewArguments => "too few arguments."
  | .couldNotOpenStorage err => "could not open storage: " ++ err
  | .couldNotRetrieveTag tagName err => "could not retrieve tag '" ++ tagName ++ "': " ++ err
  | .noSuchTag tagName => "no such tag '" ++ tagName ++ "'."
  | .sameNames => "source and destination names are the same."
  | .couldNotRetrieveExplicit s err =>
    "could not retrieve explicit taggings for tag '" ++ s ++ "': " ++ err
  | .couldNotRetrieveImplicit s err =>
    "could not retrieve implicit taggings for tag '" ++ s ++ "': " ++ err
  | .couldNotAddExplicit d fileId err =>
    "could not add explicit tag '" ++ d ++ "' to file #" ++ toString fileId ++ ": " ++ err
  | .couldNotAddImplicit d fileId err =>
    "could not add implicit tag '" ++ d ++ "' to file #" ++ toString fileId ++ ": " ++ err
  | .couldNotRemoveExplicit s err =>
    "could not remove all explicit taggings of tag '" ++ s ++ "': " ++ err
  | .couldNotRemoveImplicit s err =>
    "could not remove all implicit taggings of tag '" ++ s ++ "': " ++ err
  | .couldNotDeleteTag s err => "could not delete tag '" ++ s ++ "': " ++ err

/-- A text occurs inside a message. -/
def mentions (message part : String) : Prop :=
  part.data <:+: message.data

instance (message part : String) : Decidable (mentions message part) :=
  inferInstanceAs (Decidable (part.data <:+: message.data))

namespace MergeCommand

/-- The loop of `merge.go` lines 102-107 over the fetched explicit rows. -/
def addExplicitFileTags (φ : Faults) (destTagName : String) (destTag : Tag) :
    List FileTag → World → Option MergeError × World
  | [], w => (none, w)
  | explicitFileTag :: rest, w =>
    match AddExplicitFileTag φ w explicitFileTag.FileId destTag.Id with
    | (.error err, w1) =>
      (some (.couldNotAddExplicit destTagName explicitFileTag.FileId err), w1)
    | (.ok _, w1) => addExplicitFileTags φ destTagName destTag rest w1

/-- The loop of `merge.go` lines 109-114 over the fetched implicit rows. -/
def addImplicitFileTags (φ : Faults) (destTagName : String) (destTag : Tag) :
    List FileTag → World → Option MergeError × World
  | [], w => (none, w)
  | implicitFileTag :: rest, w =>
    match AddImplicitFileTag φ w implicitFileTag.FileId destTag.Id with
    | (.error err, w1) =>
      (some (.couldNotAddImplicit destTagName implicitFileTag.FileId err), w1)
    | (.ok _, w1) => addImplicitFileTags φ destTagName destTag rest w1

/-- The body of the loop over the source names, `merge.go` lines 72-137. -/
def mergeSource (φ : Faults) (verbose : Bool) (destTagName : String) (destTag : Tag)
    (sourceTagName : String) (w : World) : Option MergeError × World :=
  if sourceTagName = destTagName then (some .sameNames, w) else
  match TagByName φ w sourceTagName with
  | (.error err, w1) => (some (.couldNotRetrieveTag sourceTagName err), w1)
  | (.ok none, w1) => (some (.noSuchTag sourceTagName), w1)
  | (.ok (some sourceTag), w1) =>
    let w2 := w1.infoIf verbose ("finding files tagged '" ++ sourceTagName ++ "'.")
    match ExplicitFileTagsByTagId φ w2 sourceTag.Id with
    | (.error err, w3) => (some (.couldNotRetrieveExplicit sourceTagName err), w3)
    | (.ok explicitFileTags, w3) =>
      match ImplicitFileTagsByTagId φ w3 sourceTag.Id with
      | (.error err, w4) => (some (.couldNotRetrieveImplicit sourceTagName err), w4)
      | (.ok implicitFileTags, w4) =>
        let w5 := w4.infoIf verbose ("applying tag '" ++ destTagName ++ "' to these files.")
        match addExplicitFileTags φ destTagName destTag explicitFileTags w5 with
        | (some err, w6) => (some err, w6)
        | (none, w6) =>
          match addImplicitFileTags φ destTagName destTag implicitFileTags w6 with
          | (some err, w7) => (some err, w7)
          | (none, w7) =>
            let w8 := w7.infoIf verbose ("untagging files '" ++ sourceTagName ++ "'.")
            match RemoveExplicitFileTagsByTagId φ w8 sourceTag.Id with
            | (.error err, w9) => (some (.couldNotRemoveExplicit sourceTagName err), w9)
            | (.ok _, w9) =>
              match RemoveImplicitFileTagsByTagId φ w9 sourceTag.Id with
              | (.error err, w10) => (some (.couldNotRemoveImplicit sourceTagName err), w10)
              | (.ok _, w10) =>
                let w11 := w10.infoIf verbose ("deleting tag '" ++ sourceTagName ++ "'.")
                match DeleteTag φ w11 sourceTag.Id with
                | (.error err, w12) => (some (.couldNotDeleteTag sourceTagName err), w12)
                | (.ok _, w12) => (none, w12)

/-- The loop `for _, sourceTagName := range args[0 : len(args)-1]`, which stops
at the first error. -/
def mergeSources (φ : Faults) (verbose : Bool) (destTagName : String) (destTag : Tag) :
    List String → World → Option MergeError × World
  | [], w => (none, w)
  | sourceTagName :: rest, w =>
    match mergeSource φ verbose destTagName destTag sourceTagName w with
    | (some err, w1) => (some err, w1)
    | (none, w1) => mergeSources φ verbose destTagName destTag rest w1

/-- The destination name `args[len(args)-1]`. -/
def destName (args : List String) : String :=
  args.getD (args.length - 1) ""

/-- The source names `args[0 : len(args)-1]`. -/
def sourceNames (args : List String) : List String :=
  args.take (args.length - 1)

/-- `MergeCommand.Exec`: the returned error (`none` for `nil`) and the world
afterwards.  `store.Close()` has no effect in this model. -/
def Exec (φ : Faults) (options : Options) (args : List String) (w : World) :
    Option MergeError × World :=
  let verbose := HasOption options "--verbose"
  if args.length < 2 then (some .tooFewArguments, w) else
  match Open φ w with
  | (.error err, w1) => (some (.couldNotOpenStorage err), w1)
  | (.ok _, w1) =>
    let destTagName := destName args
    match TagByName φ w1 destTagName with
    | (.error err, w2) => (some (.couldNotRetrieveTag destTagName err), w2)
    | (.ok none, w2) => (some (.noSuchTag destTagName), w2)
    | (.ok (some destTag), w2) =>
      mergeSources φ verbose destTagName destTag (sourceNames args) w2

end MergeCommand

/-! ## Auxiliary definitions: the stages and the invariant of a merge -/

/-- Copy the rows `xs` of kind `k` onto the tag `d`, one idempotent insert each. -/
def copyRows (k : Kind) (d : Tag) (xs : List FileTag) (db : Database) : Database :=
  xs.foldl (fun acc ft => acc.addFileTag k ft.FileId d.Id) db

/-- The source named by an error of the removal or deletion steps. -/
def MergeError.lateSource : MergeError → Option String
  | .couldNotRemoveExplicit s _ => some s
  | .couldNotRemoveImplicit s _ => some s
  | .couldNotDeleteTag s _ => some s
  | _ => none

/-- The database after the rows `E` and `I` of a source have been copied to the
destination `d` and `n` of the three clean-up steps (remove explicit, remove
implicit, delete tag) have been applied to the source `st`. -/
def stageDb (db : Database) (d st : Tag) (E I : List FileTag) (n : Nat) : Database :=
  let copied := copyRows .Implicit d I (copyRows .Explicit d E db)
  match n with
  | 0 => copied
  | 1 => copied.removeFileTagsByTagId .Explicit st.Id
  | 2 => (copied.removeFileTagsByTagId .Explicit st.Id).removeFileTagsByTagId .Implicit st.Id
  | _ =>
    ((copied.removeFileTagsByTagId .Explicit st.Id).removeFileTagsByTagId .Implicit st.Id).deleteTag
      st.Id

/-- What one iteration of the loop over the sources can do to the database. -/
inductive Outcome (d : Tag) (dn s : String) (db : Database) :
    Option MergeError → Database → Prop where
  | untouched (err : MergeError) (hlate : err.lateSource = none) :
      Outcome d dn s db (some err) db
  | adding (st : Tag) (E I : List FileTag) (err : MergeError)
      (hst : db.tagByName s = some st) (hne : s ≠ dn)
      (hE : ∀ ft ∈ E, ft ∈ db.fileTagsByTagId .Explicit st.Id)
      (hI : ∀ ft ∈ I, ft ∈ db.fileTagsByTagId .Implicit st.Id)
      (hlate : err.lateSource = none) :
      Outcome d dn s db (some err) (stageDb db d st E I 0)
  | removing (st : Tag) (err : MergeError) (n : Nat)
      (hst : db.tagByName s = some st) (hne : s ≠ dn) (hn : n ≤ 2)
      (hlate : err.lateSource = some s) :
      Outcome d dn s db (some err)
        (stageDb db d st (db.fileTagsByTagId .Explicit st.Id)
          (db.fileTagsByTagId .Implicit st.Id) n)
  | merged (st : Tag) (hst : db.tagByName s = some st) (hne : s ≠ dn) :
      Outcome d dn s db none
        (stageDb db d st (db.fileTagsByTagId .Explicit st.Id)
          (db.fileTagsByTagId .Implicit st.Id) 3)

/-- The rows of kind `k` among the fetched explicit rows `E` and implicit rows `I`. -/
def pick (k : Kind) (E I : List FileTag) : List FileTag :=
  match k with
  | .Explicit => E
  | .Implicit => I

/-- The rows of kind `k` of the source have been removed after `n` clean-up steps. -/
def cleared : Kind → Nat → Prop
  | .Explicit, n => 1 ≤ n
  | .Implicit, n => 2 ≤ n

/-- The relation between the database `db0` a merge into `d` started from and a
database `db` it has reached, `S` being the source names: tags are only deleted,
the destination stays, a deleted tag is a source and has no rows left, a new row
is a row of a source copied onto `d`, a missing row is a row of a source that
`d` now carries, and a table without duplicate rows stays so. -/
structure Evolved (d : Tag) (S : List String) (db0 db : Database) : Prop where
  sub : db.tags.Sublist db0.tags
  dest : d ∈ db.tags
  gone : ∀ t ∈ db0.tags, t ∉ db.tags →
    t.Name ∈ S ∧ ∀ k r, r ∈ db.fileTags k → r.TagId ≠ t.Id
  added : ∀ k r, r ∈ db.fileTags k → r ∈ db0.fileTags k ∨
    (r.TagId = d.Id ∧ ∃ t ∈ db0.tags, t.Name ∈ S ∧ (⟨r.FileId, t.Id⟩ : FileTag) ∈ db0.fileTags k)
  kept : ∀ k r, r ∈ db0.fileTags k → r ∈ db.fileTags k ∨
    ∃ t ∈ db0.tags, t.Name ∈ S ∧ t.Id = r.TagId ∧ (⟨r.FileId, d.Id⟩ : FileTag) ∈ db.fileTags k
  nodup : ∀ k, (db0.fileTags k).Nodup → (db.fileTags k).Nodup

/-- What an iteration of the source loop establishes: the invariant, on success
the removal of the source, and after a failure in the clean-up steps of a source
that the destination carries every row of that source. -/
structure Reached (d : Tag) (S : List String) (db0 : Database) (srcs : List String)
    (res : Option MergeError) (db : Database) : Prop where
  evolved : Evolved d S db0 db
  done : res = none → ∀ s ∈ srcs,
    s ≠ d.Name ∧ (∃ t ∈ db0.tags, t.Name = s) ∧ ∀ t ∈ db.tags, t.Name ≠ s
  late : ∀ err s, res = some err → err.lateSource = some s →
    ∀ t ∈ db0.tags, t.Name = s → ∀ k f, (⟨f, t.Id⟩ : FileTag) ∈ db0.fileTags k →
      (⟨f, d.Id⟩ : FileTag) ∈ db.fileTags k

/-- A world with the source tags X and Y, the destination C without rows, and a
tag Z that no command below names. -/
def sampleWorld : World :=
  { db := { tags := [⟨1, "X"⟩, ⟨2, "Y"⟩, ⟨3, "C"⟩, ⟨4, "Z"⟩]
            explicitFileTags := [⟨10, 1⟩, ⟨11, 2⟩, ⟨13, 4⟩]
            implicitFileTags := [⟨20, 1⟩, ⟨21, 2⟩] }
    calls := []
    log := [] }

/-! ## Properties of a merge -/

/-- The state after a successful merge of the sources of `args` into its
destination, `db` being the database before and `db'` the one after: the
destination `d` still exists; for each kind the files of `d` are exactly those
of `d` or of a named source before; every source named a tag, no tag has its
name any more and no row has its id; and when `d` had no rows before, its files
of either kind are exactly the files of the sources of either kind. -/
def MergedInto (args : List String) (db db' : Database) : Prop :=
  ∃ d, db.tagByName (MergeCommand.destName args) = some d ∧ d ∈ db'.tags ∧
    (∀ k f, (⟨f, d.Id⟩ : FileTag) ∈ db'.fileTags k ↔
      ((⟨f, d.Id⟩ : FileTag) ∈ db.fileTags k ∨
        ∃ t ∈ db.tags, t.Name ∈ MergeCommand.sourceNames args ∧
          (⟨f, t.Id⟩ : FileTag) ∈ db.fileTags k)) ∧
    (∀ s ∈ MergeCommand.sourceNames args,
      (∃ t ∈ db.tags, t.Name = s) ∧ (∀ t ∈ db'.tags, t.Name ≠ s) ∧
        ∀ t ∈ db.tags, t.Name = s → ∀ k r, r ∈ db'.fileTags k → r.TagId ≠ t.Id) ∧
    ((∀ k f, (⟨f, d.Id⟩ : FileTag) ∉ db.fileTags k) →
      ∀ f, (∃ k, (⟨f, d.Id⟩ : FileTag) ∈ db'.fileTags k) ↔
        ∃ k, ∃ t ∈ db.tags, t.Name ∈ MergeCommand.sourceNames args ∧
          (⟨f, t.Id⟩ : FileTag) ∈ db.fileTags k)

/-- No tagging is lost between `db` and `db'` by a merge that returned `res`:
the destination tag still exists; a file that had a tag named in `args` with
kind `k` still has, with kind `k`, the destination or a source that still
exists; and when `res` is an error of the removal or deletion steps of the
source `s`, the destination carries every row of `s` of both kinds. -/
def NoTaggingLost (args : List String) (res : Option MergeError) (db db' : Database) : Prop :=
  (∀ t ∈ db.tags, t.Name = MergeCommand.destName args → t ∈ db'.tags) ∧
  (∀ k t f, t ∈ db.tags → t.Name ∈ args → (⟨f, t.Id⟩ : FileTag) ∈ db.fileTags k →
    ∃ t' ∈ db'.tags,
      (t'.Name = MergeCommand.destName args ∨ t'.Name ∈ MergeCommand.sourceNames args) ∧
        (⟨f, t'.Id⟩ : FileTag) ∈ db'.fileTags k) ∧
  (∀ err s, res = some err → err.lateSource = some s →
    ∀ d ∈ db.tags, d.Name = MergeCommand.destName args → ∀ t ∈ db.tags, t.Name = s →
      ∀ k f, (⟨f, t.Id⟩ : FileTag) ∈ db.fileTags k → (⟨f, d.Id⟩ : FileTag) ∈ db'.fileTags k)

/-- The frame of a merge between `db` and `db'`: a tag not named in `args` is
still there with the same rows of each kind; a tag that is gone was named as a
source; no tag is new; and a new row has the id of the destination. -/
def OnlyArgumentsTouched (args : List String) (db db' : Database) : Prop :=
  (∀ t ∈ db.tags, t.Name ∉ args →
    t ∈ db'.tags ∧ ∀ k r, r.TagId = t.Id → (r ∈ db'.fileTags k ↔ r ∈ db.fileTags k)) ∧
  (∀ t ∈ db.tags, t ∉ db'.tags → t.Name ∈ MergeCommand.sourceNames args) ∧
  (∀ t ∈ db'.tags, t ∈ db.tags) ∧
  (∀ k r, r ∈ db'.fileTags k → r ∉ db.fileTags k →
    ∃ d, db.tagByName (MergeCommand.destName args) = some d ∧ r.TagId = d.Id)

/-- A second run of a completed merge, `start` being the database before the
first run, `before` the database the first run left and `r2` the result of the
second run under the fault plan `φ2`: the database is as the first run left it,
an error is returned, that error is the `no such tag` error for the first source
when no store call fails, and an association table that had no duplicate row at
the start has none now. -/
def RerunRejected (args : List String) (φ2 : Faults) (start before : Database)
    (r2 : Option MergeError × World) : Prop :=
  r2.2.db = before ∧ r2.1 ≠ none ∧
  ((∀ i, φ2 i = none) →
    r2.1 = some (.noSuchTag (args.headD "")) ∧
      r2.1.map MergeError.message = some ("no such tag '" ++ args.headD "" ++ "'.")) ∧
  ∀ k, (start.fileTags k).Nodup → (r2.2.db.fileTags k).Nodup

/-- The result of a merge whose first source is its destination: the `same
names` error, the database and the log untouched, and only the two look-up
calls made. -/
def RejectedAtOnce (args : List String) (w : World) : Option MergeError × World :=
  (some .sameNames,
    { w with calls := w.calls ++ [Call.Open, Call.TagByName (MergeCommand.destName args)] })

/-- The result of a merge that goes on to a source equal to the destination:
the error of the earlier sources if there is one, the `same names` error
otherwise, in the world the earlier sources left. -/
def thenSameNames (r : Option MergeError × World) : Option MergeError × World :=
  match r with
  | (some err, w1) => (some err, w1)
  | (none, w1) => (some .sameNames, w1)

/-! ## The error of a merge -/

/-- The underlying cause formatted last into the message of an error, if the
error reports a store failure. -/
def MergeError.cause : MergeError → Option String
  | .tooFewArguments => none
  | .couldNotOpenStorage err => some err
  | .couldNotRetrieveTag _ err => some err
  | .noSuchTag _ => none
  | .sameNames => none
  | .couldNotRetrieveExplicit _ err => some err
  | .couldNotRetrieveImplicit _ err => some err
  | .couldNotAddExplicit _ _ err => some err
  | .couldNotAddImplicit _ _ err => some err
  | .couldNotRemoveExplicit _ err => some err
  | .couldNotRemoveImplicit _ err => some err
  | .couldNotDeleteTag _ err => some err

/-- The tag names formatted into the message of an error. -/
def MergeError.tagNames : MergeError → List String
  | .tooFewArguments => []
  | .couldNotOpenStorage _ => []
  | .couldNotRetrieveTag tagName _ => [tagName]
  | .noSuchTag tagName => [tagName]
  | .sameNames => []
  | .couldNotRetrieveExplicit s _ => [s]
  | .couldNotRetrieveImplicit s _ => [s]
  | .couldNotAddExplicit d _ _ => [d]
  | .couldNotAddImplicit d _ _ => [d]
  | .couldNotRemoveExplicit s _ => [s]
  | .couldNotRemoveImplicit s _ => [s]
  | .couldNotDeleteTag s _ => [s]

/-- The steps 1 to 7 of specification section 4.1 for the source tag `st` and the
destination tag `d` over the database `db`, as store calls in order: fetch the
explicit rows, fetch the implicit rows, add each explicit row to `d`, add each
implicit row to `d`, remove the explicit rows, remove the implicit rows, delete
the tag. -/
def sourceSteps (db : Database) (d st : Tag) : List Call :=
  [Call.ExplicitFileTagsByTagId st.Id, Call.ImplicitFileTagsByTagId st.Id] ++
    ((db.fileTagsByTagId .Explicit st.Id).map
        (fun ft => Call.AddExplicitFileTag ft.FileId d.Id) ++
      ((db.fileTagsByTagId .Implicit st.Id).map
          (fun ft => Call.AddImplicitFileTag ft.FileId d.Id) ++
        [Call.RemoveExplicitFileTagsByTagId st.Id, Call.RemoveImplicitFileTagsByTagId st.Id,
          Call.DeleteTag st.Id]))

/-- The error reported when the store call `c` fails with the cause `e` while
the source named `s` is merged into the destination named `dn`: a failed fetch,
removal or deletion is reported with `s`, a failed add with `dn` and the file
id. -/
def report (dn s e : String) : Call → MergeError
  | .Open => .couldNotOpenStorage e
  | .TagByName name => .couldNotRetrieveTag name e
  | .ExplicitFileTagsByTagId _ => .couldNotRetrieveExplicit s e
  | .ImplicitFileTagsByTagId _ => .couldNotRetrieveImplicit s e
  | .AddExplicitFileTag fileId _ => .couldNotAddExplicit dn fileId e
  | .AddImplicitFileTag fileId _ => .couldNotAddImplicit dn fileId e
  | .RemoveExplicitFileTagsByTagId _ => .couldNotRemoveExplicit s e
  | .RemoveImplicitFileTagsByTagId _ => .couldNotRemoveImplicit s e
  | .DeleteTag _ => .couldNotDeleteTag s e

/-- From the world `w` exactly the store calls `made` were made, in order, and
each of them succeeded under the fault plan `φ`; `w'` is the world reached. -/
def Succeeded (φ : Faults) (w : World) (made : List Call) (w' : World) : Prop :=
  w'.calls = w.calls ++ made ∧ ∀ i, i < made.length → φ (w.calls.length + i) = none

/-- From the world `w` the store calls `made` were made and succeeded, then the
call `c` was made and failed with the cause `e`, and no call was made after it;
`w'` is the world reached. -/
def FailedAfter (φ : Faults) (w : World) (made : List Call) (c : Call) (e : String)
    (w' : World) : Prop :=
  w'.calls = w.calls ++ (made ++ [c]) ∧
  (∀ i, i < made.length → φ (w.calls.length + i) = none) ∧
  φ (w.calls.length + made.length) = some e

/-- How the iteration for the source named `s` ends with the error `err`, started
in the world `w` with the destination tag `d` named `dn`: the source is the
destination; its look-up fails; it names no tag; or, `st` being the tag it
names, the steps of `sourceSteps` are made in order up to a step `c` that fails
with `e`, and `err` is the report of `c`. -/
inductive SourceFailure (φ : Faults) (dn : String) (d : Tag) (s : String) (w : World) :
    MergeError → World → Prop where
  | sameNames (h : s = dn) : SourceFailure φ dn d s w .sameNames w
  | lookup (e : String) (w' : World) (hne : s ≠ dn)
      (hf : FailedAfter φ w [] (.TagByName s) e w') :
      SourceFailure φ dn d s w (.couldNotRetrieveTag s e) w'
  | noSuchTag (w' : World) (hne : s ≠ dn) (hs : Succeeded φ w [.TagByName s] w')
      (hn : w.db.tagByName s = none) :
      SourceFailure φ dn d s w (.noSuchTag s) w'
  | step (st : Tag) (steps : List Call) (c : Call) (rest : List Call) (e : String)
      (w' : World) (hne : s ≠ dn) (hst : w.db.tagByName s = some st)
      (hsteps : sourceSteps w.db d st = steps ++ c :: rest)
      (hf : FailedAfter φ w (.TagByName s :: steps) c e w') :
      SourceFailure φ dn d s w (report dn s e c) w'

/-- How `MergeCommand.Exec` on `args` ends with the error `err`, started in the
world `w`: too few arguments; opening the store fails; the look-up of the
destination fails; the destination names no tag; or, `d` being the destination
tag, the sources `done` are merged completely, all calls succeeding, and the
iteration for the next source `s` ends with `err`. -/
inductive ExecFailure (φ : Faults) (verbose : Bool) (args : List String) (w : World) :
    MergeError → World → Prop where
  | tooFew (h : args.length < 2) : ExecFailure φ verbose args w .tooFewArguments w
  | openStorage (e : String) (w' : World) (h : 2 ≤ args.length)
      (hf : FailedAfter φ w [] .Open e w') :
      ExecFailure φ verbose args w (.couldNotOpenStorage e) w'
  | lookupDest (e : String) (w' : World) (h : 2 ≤ args.length)
      (hf : FailedAfter φ w [.Open] (.TagByName (MergeCommand.destName args)) e w') :
      ExecFailure φ verbose args w (.couldNotRetrieveTag (MergeCommand.destName args) e) w'
  | noDest (w' : World) (h : 2 ≤ args.length)
      (hs : Succeeded φ w [.Open, .TagByName (MergeCommand.destName args)] w')
      (hn : w.db.tagByName (MergeCommand.destName args) = none) :
      ExecFailure φ verbose args w (.noSuchTag (MergeCommand.destName args)) w'
  | source (d : Tag) (done : List String) (s : String) (rest : List String)
      (w2 w3 w' : World) (made : List Call) (err : MergeError) (h : 2 ≤ args.length)
      (hd : w.db.tagByName (MergeCommand.destName args) = some d)
      (hsrc : MergeCommand.sourceNames args = done ++ s :: rest)
      (h2 : Succeeded φ w [.Open, .TagByName (MergeCommand.destName args)] w2)
      (hdb : w2.db = w.db)
      (hdone : MergeCommand.mergeSources φ verbose (MergeCommand.destName args) d done w2 =
        (none, w3))
      (hmade : Succeeded φ w2 made w3)
      (hrun : SourceFailure φ (MergeCommand.destName args) d s w3 err w') :
      ExecFailure φ verbose args w err w'

/-- The statement of the amended claim on the error `err` and the world `w'` that
`MergeCommand.Exec` returns: the run ends in one of the ways of `ExecFailure`;
if the last store call the command made failed with `e`, then `e` is the cause
that `err` carries; and `err` carries at most one tag name. -/
def ErrorNamesFailedStep (φ : Faults) (verbose : Bool) (args : List String) (w : World)
    (err : MergeError) (w' : World) : Prop :=
  ExecFailure φ verbose args w err w' ∧
  (∀ e, w.calls.length < w'.calls.length → φ (w'.calls.length - 1) = some e →
    err.cause = some e) ∧
  err.tagNames.length ≤ 1

/-- The fault plan in which only the store call with index `n` fails. -/
def failAt (n : Nat) : Faults :=
  fun i => if i = n then some "disk failure" else none

/-! ## `tags.go` -/

/-- Modelled from the spec: the queries of `tmsu/storage` that the `tags`
command uses (`Tags`, `TagsForPath`, `ExplicitTagsForPath`), each returning
tags or an error. -/
structure PathStore where
  Tags : Except String (List Tag)
  TagsForPath : String → Except String (List Tag)
  ExplicitTagsForPath : String → Except String (List Tag)

/-- The working directory as `os.Open(".")` and `file.Readdirnames(0)` report it. -/
structure WorkingDirectory where
  openError : Option String
  names : Except String (List String)

/-- `tagLine`: the tag names joined by single spaces (`strings.Join`). -/
def tagLine (tags : List Tag) : String :=
  " ".intercalate (tags.map Tag.Name)

/-- Go's `<=` on strings: the lexicographic order of the code point sequences,
which for UTF-8 text is the order of the byte sequences. -/
def StringLe (a b : String) : Prop :=
  a.data ≤ b.data

instance : DecidableRel StringLe :=
  fun a b => inferInstanceAs (Decidable (a.data ≤ b.data))

/-- `sort.Strings`: the names in ascending order. -/
def sortStrings (names : List String) : List String :=
  names.insertionSort StringLe

namespace TagsCommand

/-- `log.Infof` under `if command.verbose`. -/
def infoIf (verbose : Bool) (text : String) : List LogLine :=
  if verbose then [LogLine.info text] else []

/-- `TagsCommand.listAllTags`, given the result of `storage.Open()`: the
returned error and the lines logged. -/
def listAllTags (verbose : Bool) (storage : Except String PathStore) :
    Option String × List LogLine :=
  match storage with
  | .error err => (some ("could not open storage: " ++ err), [])
  | .ok store =>
    let out := infoIf verbose "retrieving all tags."
    match store.Tags with
    | .error err => (some ("could not retrieve tags: " ++ err), out)
    | .ok tags => (none, out ++ tags.map (fun tag => LogLine.print tag.Name))

/-- `TagsCommand.listTagsForPath`. -/
def listTagsForPath (verbose : Bool) (store : PathStore) (path : String) (explicitOnly : Bool) :
    Option String × List LogLine :=
  let out := infoIf verbose ("'" ++ path ++ "': retrieving tags.")
  if explicitOnly then
    match store.ExplicitTagsForPath path with
    | .error err => (some ("'" ++ path ++ "': could not retrieve explicit tags: " ++ err), out)
    | .ok tags => (none, out ++ tags.map (fun tag => LogLine.print tag.Name))
  else
    match store.TagsForPath path with
    | .error err => (some ("'" ++ path ++ "': could not retrieve tags: " ++ err), out)
    | .ok tags => (none, out ++ tags.map (fun tag => LogLine.print tag.Name))

/-- The lines logged by the loop of `listTagsForPaths`. -/
def listTagsForPathsLoop (verbose : Bool) (store : PathStore) (explicitOnly : Bool) :
    List String → List LogLine
  | [] => []
  | path :: rest =>
    let out := infoIf verbose ("'" ++ path ++ "': retrieving tags.")
    let result := if explicitOnly then store.ExplicitTagsForPath path else store.TagsForPath path
    match result with
    | .error err => out ++ [LogLine.warn err] ++ listTagsForPathsLoop verbose store explicitOnly rest
    | .ok tags =>
      out ++ [LogLine.print (path ++ ": " ++ tagLine tags)] ++
        listTagsForPathsLoop verbose store explicitOnly rest

/-- `TagsCommand.listTagsForPaths`. -/
def listTagsForPaths (verbose : Bool) (store : PathStore) (paths : List String)
    (explicitOnly : Bool) : Option String × List LogLine :=
  (none, listTagsForPathsLoop verbose store explicitOnly paths)

/-- The lines logged by the loop of `listTagsForWorkingDirectory` over the sorted
names. -/
def listTagsForWorkingDirectoryLoop (verbose : Bool) (store : PathStore) (explicitOnly : Bool) :
    List String → List LogLine
  | [] => []
  | dirName :: rest =>
    let out := infoIf verbose ("'" ++ dirName ++ "': retrieving tags.")
    let result :=
      if explicitOnly then store.ExplicitTagsForPath dirName else store.TagsForPath dirName
    match result with
    | .error err =>
      out ++ [LogLine.warn err] ++ listTagsForWorkingDirectoryLoop verbose store explicitOnly rest
    | .ok tags =>
      if tags.length = 0 then
        out ++ listTagsForWorkingDirectoryLoop verbose store explicitOnly rest
      else
        out ++ [LogLine.print (dirName ++ ": " ++ tagLine tags)] ++
          listTagsForWorkingDirectoryLoop verbose store explicitOnly rest

/-- `TagsCommand.listTagsForWorkingDirectory`. -/
def listTagsForWorkingDirectory (verbose : Bool) (dir : WorkingDirectory) (store : PathStore)
    (explicitOnly : Bool) : Option String × List LogLine :=
  match dir.openError with
  | some err => (some ("could not open working directory: " ++ err), [])
  | none =>
    match dir.names with
    | .error err => (some ("could not list working directory contents: " ++ err), [])
    | .ok dirNames =>
      (none, listTagsForWorkingDirectoryLoop verbose store explicitOnly (sortStrings dirNames))

/-- `TagsCommand.listTags`, given the result of `storage.Open()`. -/
def listTags (verbose : Bool) (dir : WorkingDirectory) (storage : Except String PathStore)
    (paths : List String) (explicitOnly : Bool) : Option String × List LogLine :=
  match storage with
  | .error err => (some ("could not open storage: " ++ err), [])
  | .ok store =>
    match paths.length with
    | 0 => listTagsForWorkingDirectory verbose dir store explicitOnly
    | 1 => listTagsForPath verbose store (paths.getD 0 "") explicitOnly
    | _ => listTagsForPaths verbose store paths explicitOnly

/-- `TagsCommand.Exec`. -/
def Exec (dir : WorkingDirectory) (storage : Except String PathStore) (options : Options)
    (args : List String) : Option String × List LogLine :=
  let verbose := HasOption options "--verbose"
  if HasOption options "--all" then listAllTags verbose storage
  else
    let explicitOnly := HasOption options "--explicit"
    listTags verbose dir storage args explicitOnly

end TagsCommand

/-! ## Properties of a listing -/

/-- The resolver a listing uses: `ExplicitTagsForPath` under `--explicit`,
`TagsForPath` otherwise. -/
def resolve (store : PathStore) (explicitOnly : Bool) (path : String) :
    Except String (List Tag) :=
  if explicitOnly then store.ExplicitTagsForPath path else store.TagsForPath path

/-- The result lines (`log.Print`) among the lines logged. -/
def printed (out : List LogLine) : List String :=
  out.filterMap fun l => match l with
    | .print text => some text
    | _ => none

/-- The warnings (`log.Warn`) among the lines logged. -/
def warnings (out : List LogLine) : List String :=
  out.filterMap fun l => match l with
    | .warn text => some text
    | _ => none

/-- The result line of a directory entry: `<name>: <tags>` when the entry
resolves to at least one tag, none otherwise. -/
def scanLine (store : PathStore) (explicitOnly : Bool) (name : String) : Option String :=
  match resolve store explicitOnly name with
  | .ok (t :: ts) => some (name ++ ": " ++ " ".intercalate ((t :: ts).map Tag.Name))
  | _ => none

/-- The result line of a path argument: `<path>: <tags>` when the path resolves,
also to no tag; none otherwise. -/
def pathLine (store : PathStore) (explicitOnly : Bool) (path : String) : Option String :=
  match resolve store explicitOnly path with
  | .ok tags => some (path ++ ": " ++ " ".intercalate (tags.map Tag.Name))
  | .error _ => none

/-- The warning of a path or entry: the error text of its resolution, if it
fails. -/
def warningOf (store : PathStore) (explicitOnly : Bool) (path : String) : Option String :=
  match resolve store explicitOnly path with
  | .ok _ => none
  | .error err => some err

/-- The resolution of a path succeeds. -/
def resolves (store : PathStore) (explicitOnly : Bool) (path : String) : Bool :=
  match resolve store explicitOnly path with
  | .ok _ => true
  | .error _ => false

/-- A store in which `a` and `fileX` have the tag red, `c` and `fileY` are
tracked without tags, and every other path is not tracked. -/
def sampleStore : PathStore :=
  { Tags := .ok [⟨1, "red"⟩]
    TagsForPath := fun path =>
      if path = "a" ∨ path = "fileX" then .ok [⟨1, "red"⟩]
      else if path = "c" ∨ path = "fileY" then .ok []
      else .error ("no such file '" ++ path ++ "'")
    ExplicitTagsForPath := fun path =>
      if path = "a" ∨ path = "fileX" then .ok [⟨1, "red"⟩]
      else if path = "c" ∨ path = "fileY" then .ok []
      else .error ("no such file '" ++ path ++ "'") }

/-- A working directory with the entries `c`, `a` and `b`, in that order. -/
def sampleDirectory : WorkingDirectory :=
  { openError := none, names := .ok ["c", "a", "b"] }

/-! # Theorems -/

/-! ## The database operations -/

theorem mem_insertFileTag (rows : List FileTag) (ft r : FileTag) :
    r ∈ insertFileTag rows ft ↔ r ∈ rows ∨ r = ft := by
  unfold insertFileTag
  split
  · constructor
    · intro h; exact Or.inl h
    · rintro (h | h)
      · exact h
      · subst h; assumption
  · simp

theorem nodup_insertFileTag (rows : List FileTag) (ft : FileTag) (h : rows.Nodup) :
    (insertFileTag rows ft).Nodup := by
  unfold insertFileTag
  split
  · exact h
  · rename_i hn
    exact List.Nodup.append h (List.nodup_singleton ft) (by simpa using hn)

theorem copyRows_tags (k : Kind) (d : Tag) (xs : List FileTag) (db : Database) :
    (copyRows k d xs db).tags = db.tags := by
  induction xs generalizing db with
  | nil => rfl
  | cons x xs ih =>
    simp only [copyRows, List.foldl_cons] at ih ⊢
    rw [ih]; cases k <;> rfl

theorem copyRows_other (k k' : Kind) (d : Tag) (xs : List FileTag) (db : Database) (h : k' ≠ k) :
    (copyRows k d xs db).fileTags k' = db.fileTags k' := by
  induction xs generalizing db with
  | nil => rfl
  | cons x xs ih =>
    simp only [copyRows, List.foldl_cons] at ih ⊢
    rw [ih]; cases k <;> cases k' <;> first | rfl | exact absurd rfl h

theorem mem_copyRows (k : Kind) (d : Tag) (xs : List FileTag) (db : Database) (r : FileTag) :
    r ∈ (copyRows k d xs db).fileTags k ↔
      r ∈ db.fileTags k ∨ ∃ ft ∈ xs, r = ⟨ft.FileId, d.Id⟩ := by
  induction xs generalizing db with
  | nil => simp [copyRows]
  | cons x xs ih =>
    simp only [copyRows, List.foldl_cons] at ih ⊢
    rw [ih]
    have : r ∈ (db.addFileTag k x.FileId d.Id).fileTags k ↔
        r ∈ db.fileTags k ∨ r = ⟨x.FileId, d.Id⟩ := by
      cases k <;> simp [Database.addFileTag, Database.fileTags, mem_insertFileTag]
    rw [this]
    simp only [List.mem_cons, exists_eq_or_imp]
    tauto

theorem nodup_copyRows (k : Kind) (d : Tag) (xs : List FileTag) (db : Database)
    (h : (db.fileTags k).Nodup) : ((copyRows k d xs db).fileTags k).Nodup := by
  induction xs generalizing db with
  | nil => exact h
  | cons x xs ih =>
    simp only [copyRows, List.foldl_cons] at ih ⊢
    apply ih
    cases k <;> exact nodup_insertFileTag _ _ h

/-! ## Store calls -/

@[simp] theorem infoIf_db (w : World) (verbose : Bool) (text : String) :
    (w.infoIf verbose text).db = w.db := by
  unfold World.infoIf; split <;> rfl

@[simp] theorem infoIf_calls (w : World) (verbose : Bool) (text : String) :
    (w.infoIf verbose text).calls = w.calls := by
  unfold World.infoIf; split <;> rfl

theorem read_db {α : Type} {φ : Faults} {w w' : World} {c : Call} {v : Database → α}
    {r : Except String α} (h : w.read φ c v = (r, w')) :
    w'.db = w.db ∧ ∀ a, r = .ok a → a = v w.db := by
  unfold World.read at h
  split at h <;> simp only [Prod.mk.injEq] at h <;> obtain ⟨rfl, rfl⟩ := h
  · exact ⟨rfl, fun a ha => by cases ha⟩
  · exact ⟨rfl, fun a ha => by cases ha; rfl⟩

theorem write_db {φ : Faults} {w w' : World} {c : Call} {eff : Database → Database}
    {r : Except String Unit} (h : w.write φ c eff = (r, w')) :
    (∃ e, r = .error e ∧ w'.db = w.db) ∨ (r = .ok () ∧ w'.db = eff w.db) := by
  unfold World.write at h
  split at h <;> simp only [Prod.mk.injEq] at h <;> obtain ⟨rfl, rfl⟩ := h
  · exact Or.inl ⟨_, rfl, rfl⟩
  · exact Or.inr ⟨rfl, rfl⟩

/-! ## One iteration of the loop over the sources -/

theorem MergeCommand.addExplicitFileTags_db (φ : Faults) (dn : String) (d : Tag) :
    ∀ (fts : List FileTag) (w : World) (res : Option MergeError) (w' : World),
      addExplicitFileTags φ dn d fts w = (res, w') →
      ∃ xs, (∀ ft ∈ xs, ft ∈ fts) ∧ (res = none → xs = fts) ∧
        (∀ err, res = some err → err.lateSource = none) ∧
        w'.db = copyRows .Explicit d xs w.db := by
  intro fts
  induction fts with
  | nil =>
    intro w res w' h
    simp only [addExplicitFileTags, Prod.mk.injEq] at h
    obtain ⟨rfl, rfl⟩ := h
    exact ⟨[], by simp, by simp, by simp, rfl⟩
  | cons ft rest ih =>
    intro w res w' h
    simp only [addExplicitFileTags] at h
    split at h
    · rename_i err w1 hw
      simp only [Prod.mk.injEq] at h
      obtain ⟨rfl, rfl⟩ := h
      rcases write_db hw with ⟨e, _, hdb⟩ | ⟨hr, _⟩
      · exact ⟨[], by simp, by simp, by intro err h; cases h; rfl, by rw [hdb]; rfl⟩
      · cases hr
    · rename_i u w1 hw
      rcases write_db hw with ⟨e, hr, _⟩ | ⟨_, hdb⟩
      · cases hr
      · obtain ⟨xs, hsub, hall, hlate, hxs⟩ := ih w1 res w' h
        refine ⟨ft :: xs, ?_, ?_, hlate, ?_⟩
        · intro x hx
          rcases List.mem_cons.1 hx with rfl | hx
          · exact List.mem_cons_self _ _
          · exact List.mem_cons_of_mem _ (hsub x hx)
        · intro hn; rw [hall hn]
        · rw [hxs, hdb]; rfl

theorem MergeCommand.addImplicitFileTags_db (φ : Faults) (dn : String) (d : Tag) :
    ∀ (fts : List FileTag) (w : World) (res : Option MergeError) (w' : World),
      addImplicitFileTags φ dn d fts w = (res, w') →
      ∃ xs, (∀ ft ∈ xs, ft ∈ fts) ∧ (res = none → xs = fts) ∧
        (∀ err, res = some err → err.lateSource = none) ∧
        w'.db = copyRows .Implicit d xs w.db := by
  intro fts
  induction fts with
  | nil =>
    intro w res w' h
    simp only [addImplicitFileTags, Prod.mk.injEq] at h
    obtain ⟨rfl, rfl⟩ := h
    exact ⟨[], by simp, by simp, by simp, rfl⟩
  | cons ft rest ih =>
    intro w res w' h
    simp only [addImplicitFileTags] at h
    split at h
    · rename_i err w1 hw
      simp only [Prod.mk.injEq] at h
      obtain ⟨rfl, rfl⟩ := h
      rcases write_db hw with ⟨e, _, hdb⟩ | ⟨hr, _⟩
      · exact ⟨[], by simp, by simp, by intro err h; cases h; rfl, by rw [hdb]; rfl⟩
      · cases hr
    · rename_i u w1 hw
      rcases write_db hw with ⟨e, hr, _⟩ | ⟨_, hdb⟩
      · cases hr
      · obtain ⟨xs, hsub, hall, hlate, hxs⟩ := ih w1 res w' h
        refine ⟨ft :: xs, ?_, ?_, hlate, ?_⟩
        · intro x hx
          rcases List.mem_cons.1 hx with rfl | hx
          · exact List.mem_cons_self _ _
          · exact List.mem_cons_of_mem _ (hsub x hx)
        · intro hn; rw [hall hn]
        · rw [hxs, hdb]; rfl

theorem MergeCommand.mergeSource_outcome (φ : Faults) (verbose : Bool) (dn : String) (d : Tag)
    (s : String) (w : World) (res : Option MergeError) (w' : World)
    (h : MergeCommand.mergeSource φ verbose dn d s w = (res, w')) :
    Outcome d dn s w.db res w'.db := by
  unfold MergeCommand.mergeSource at h
  split at h
  · simp only [Prod.mk.injEq] at h
    obtain ⟨rfl, rfl⟩ := h
    exact .untouched _ rfl
  rename_i hne
  split at h
  · rename_i err w1 h1
    simp only [Prod.mk.injEq] at h
    obtain ⟨rfl, rfl⟩ := h
    rw [(read_db h1).1]
    exact .untouched _ rfl
  · rename_i w1 h1
    simp only [Prod.mk.injEq] at h
    obtain ⟨rfl, rfl⟩ := h
    rw [(read_db h1).1]
    exact .untouched _ rfl
  rename_i st w1 h1
  have hst : w.db.tagByName s = some st := ((read_db h1).2 _ rfl).symm
  have hw1 := (read_db h1).1
  simp only at h
  split at h
  · rename_i err w3 h3
    simp only [Prod.mk.injEq] at h
    obtain ⟨rfl, rfl⟩ := h
    rw [(read_db h3).1, infoIf_db, hw1]
    exact .untouched _ rfl
  rename_i E w3 h3
  have hE : E = w.db.fileTagsByTagId .Explicit st.Id := by
    rw [(read_db h3).2 _ rfl, infoIf_db, hw1]
  have hw3 : w3.db = w.db := by rw [(read_db h3).1, infoIf_db, hw1]
  split at h
  · rename_i err w4 h4
    simp only [Prod.mk.injEq] at h
    obtain ⟨rfl, rfl⟩ := h
    rw [(read_db h4).1, hw3]
    exact .untouched _ rfl
  rename_i I w4 h4
  have hI : I = w.db.fileTagsByTagId .Implicit st.Id := by
    rw [(read_db h4).2 _ rfl, hw3]
  have hw4 : w4.db = w.db := by rw [(read_db h4).1, hw3]
  split at h
  · rename_i err w6 h6
    simp only [Prod.mk.injEq] at h
    obtain ⟨rfl, rfl⟩ := h
    obtain ⟨xs, hsub, _, hlate, hdb⟩ := addExplicitFileTags_db φ dn d _ _ _ _ h6
    rw [infoIf_db, hw4] at hdb
    rw [hdb]
    exact .adding st xs [] err hst hne (fun ft hft => hE ▸ hsub ft hft) (by simp) (hlate _ rfl)
  rename_i w6 h6
  obtain ⟨xs, _, hall, _, hdb6⟩ := addExplicitFileTags_db φ dn d _ _ _ _ h6
  rw [infoIf_db, hw4, hall rfl] at hdb6
  split at h
  · rename_i err w7 h7
    simp only [Prod.mk.injEq] at h
    obtain ⟨rfl, rfl⟩ := h
    obtain ⟨ys, hsub, _, hlate, hdb⟩ := addImplicitFileTags_db φ dn d _ _ _ _ h7
    rw [hdb6] at hdb
    rw [hdb]
    exact .adding st E ys err hst hne (fun ft hft => hE ▸ hft) (fun ft hft => hI ▸ hsub ft hft)
      (hlate _ rfl)
  rename_i w7 h7
  obtain ⟨ys, _, hall7, _, hdb7⟩ := addImplicitFileTags_db φ dn d _ _ _ _ h7
  rw [hdb6, hall7 rfl] at hdb7
  have hw7 : w7.db = stageDb w.db d st (w.db.fileTagsByTagId .Explicit st.Id)
      (w.db.fileTagsByTagId .Implicit st.Id) 0 := by rw [hdb7, hE, hI]; rfl
  split at h
  · rename_i err w9 h9
    simp only [Prod.mk.injEq] at h
    obtain ⟨rfl, rfl⟩ := h
    rcases write_db h9 with ⟨e, _, hdb⟩ | ⟨hr, _⟩
    · rw [hdb, infoIf_db, hw7]
      exact .removing st _ 0 hst hne (by omega) rfl
    · cases hr
  rename_i u9 w9 h9
  have hw9 : w9.db = stageDb w.db d st (w.db.fileTagsByTagId .Explicit st.Id)
      (w.db.fileTagsByTagId .Implicit st.Id) 1 := by
    rcases write_db h9 with ⟨e, hr, _⟩ | ⟨_, hdb⟩
    · cases hr
    · rw [hdb, infoIf_db, hw7]; rfl
  split at h
  · rename_i err w10 h10
    simp only [Prod.mk.injEq] at h
    obtain ⟨rfl, rfl⟩ := h
    rcases write_db h10 with ⟨e, _, hdb⟩ | ⟨hr, _⟩
    · rw [hdb, hw9]
      exact .removing st _ 1 hst hne (by omega) rfl
    · cases hr
  rename_i u10 w10 h10
  have hw10 : w10.db = stageDb w.db d st (w.db.fileTagsByTagId .Explicit st.Id)
      (w.db.fileTagsByTagId .Implicit st.Id) 2 := by
    rcases write_db h10 with ⟨e, hr, _⟩ | ⟨_, hdb⟩
    · cases hr
    · rw [hdb, hw9]; rfl
  split at h
  · rename_i err w12 h12
    simp only [Prod.mk.injEq] at h
    obtain ⟨rfl, rfl⟩ := h
    rcases write_db h12 with ⟨e, _, hdb⟩ | ⟨hr, _⟩
    · rw [hdb, infoIf_db, hw10]
      exact .removing st _ 2 hst hne (by omega) rfl
    · cases hr
  rename_i u12 w12 h12
  simp only [Prod.mk.injEq] at h
  obtain ⟨rfl, rfl⟩ := h
  rcases write_db h12 with ⟨e, hr, _⟩ | ⟨_, hdb⟩
  · cases hr
  · rw [hdb, infoIf_db, hw10]
    exact .merged st hst hne

/-! ## The stages of a source -/

theorem mem_removeFileTagsByTagId (db : Database) (k k' : Kind) (tagId : Nat) (r : FileTag) :
    r ∈ (db.removeFileTagsByTagId k tagId).fileTags k' ↔
      r ∈ db.fileTags k' ∧ (k' = k → r.TagId ≠ tagId) := by
  cases k <;> cases k' <;> simp [Database.removeFileTagsByTagId, Database.fileTags]

theorem mem_copied (db : Database) (d : Tag) (E I : List FileTag) (k : Kind) (r : FileTag) :
    r ∈ (copyRows .Implicit d I (copyRows .Explicit d E db)).fileTags k ↔
      r ∈ db.fileTags k ∨ ∃ ft ∈ pick k E I, r = ⟨ft.FileId, d.Id⟩ := by
  cases k
  · rw [copyRows_other _ _ _ _ _ (by decide), mem_copyRows]; rfl
  · rw [mem_copyRows, copyRows_other _ _ _ _ _ (by decide)]; rfl

theorem mem_stageDb (db : Database) (d st : Tag) (E I : List FileTag) (n : Nat) (k : Kind)
    (r : FileTag) :
    r ∈ (stageDb db d st E I n).fileTags k ↔
      (r ∈ db.fileTags k ∨ ∃ ft ∈ pick k E I, r = ⟨ft.FileId, d.Id⟩) ∧
        (cleared k n → r.TagId ≠ st.Id) := by
  rw [← mem_copied]
  rcases n with _ | _ | _ | n <;> cases k <;> simp only [stageDb] <;>
    generalize copyRows .Implicit d I (copyRows .Explicit d E db) = c <;>
    simp [cleared, Database.removeFileTagsByTagId, Database.deleteTag, Database.fileTags]

theorem stageDb_tags (db : Database) (d st : Tag) (E I : List FileTag) (n : Nat) :
    (stageDb db d st E I n).tags =
      if 3 ≤ n then db.tags.filter (fun t => decide (t.Id ≠ st.Id)) else db.tags := by
  have h : (copyRows .Implicit d I (copyRows .Explicit d E db)).tags = db.tags := by
    rw [copyRows_tags, copyRows_tags]
  rcases n with _ | _ | _ | n <;>
    simp [stageDb, Database.removeFileTagsByTagId, Database.deleteTag, h]

theorem nodup_stageDb (db : Database) (d st : Tag) (E I : List FileTag) (n : Nat) (k : Kind)
    (h : (db.fileTags k).Nodup) : ((stageDb db d st E I n).fileTags k).Nodup := by
  have hc : ((copyRows .Implicit d I (copyRows .Explicit d E db)).fileTags k).Nodup := by
    cases k
    · rw [copyRows_other _ _ _ _ _ (by decide)]
      exact nodup_copyRows _ _ _ _ h
    · apply nodup_copyRows
      rw [copyRows_other _ _ _ _ _ (by decide)]
      exact h
  rcases n with _ | _ | _ | n <;> cases k <;>
    simp only [stageDb, Database.removeFileTagsByTagId, Database.deleteTag, Database.fileTags]
      at hc ⊢ <;>
    first
      | assumption
      | exact List.Nodup.filter _ (by assumption)

theorem tagByName_some {db : Database} {name : String} {t : Tag}
    (h : db.tagByName name = some t) : t ∈ db.tags ∧ t.Name = name := by
  unfold Database.tagByName at h
  exact ⟨List.mem_of_find?_eq_some h, by simpa using List.find?_some h⟩

theorem tagByName_none {db : Database} {name : String}
    (h : db.tagByName name = none) : ∀ t ∈ db.tags, t.Name ≠ name := by
  unfold Database.tagByName at h
  intro t ht
  simpa using List.find?_eq_none.1 h t ht

theorem tagByName_isSome {db : Database} {t : Tag} (ht : t ∈ db.tags) :
    ∃ t', db.tagByName t.Name = some t' := by
  cases h : db.tagByName t.Name with
  | none => exact absurd rfl (tagByName_none h t ht)
  | some t' => exact ⟨t', rfl⟩

theorem eq_of_id_eq {l : List Tag} (h : (l.map Tag.Id).Nodup) {a b : Tag} (ha : a ∈ l)
    (hb : b ∈ l) (hab : a.Id = b.Id) : a = b :=
  List.inj_on_of_nodup_map h ha hb hab

theorem eq_of_name_eq {l : List Tag} (h : (l.map Tag.Name).Nodup) {a b : Tag} (ha : a ∈ l)
    (hb : b ∈ l) (hab : a.Name = b.Name) : a = b :=
  List.inj_on_of_nodup_map h ha hb hab

/-! ## The invariant of the loop over the sources -/

theorem Evolved.start {d : Tag} {S : List String} {db0 : Database} (hd : d ∈ db0.tags) : Evolved d S db0 db0 where
  sub := List.Sublist.refl _
  dest := hd
  gone := fun _ ht hn => absurd ht hn
  added := fun _ _ hr => Or.inl hr
  kept := fun _ _ hr => Or.inl hr
  nodup := fun _ h => h

theorem Evolved.stage {d : Tag} {S : List String} {db0 db1 : Database} (hc : db0.Consistent)
    (h1 : Evolved d S db0 db1) {s : String} {st : Tag} (hst : db1.tagByName s = some st)
    (hs : s ∈ S) (hne : s ≠ d.Name) {E I : List FileTag}
    (hE : ∀ ft ∈ E, ft ∈ db1.fileTagsByTagId .Explicit st.Id)
    (hI : ∀ ft ∈ I, ft ∈ db1.fileTagsByTagId .Implicit st.Id) (n : Nat)
    (hfull : 0 < n →
      E = db1.fileTagsByTagId .Explicit st.Id ∧ I = db1.fileTagsByTagId .Implicit st.Id) :
    Evolved d S db0 (stageDb db1 d st E I n) := by
  obtain ⟨hst1, hstn⟩ := tagByName_some hst
  have hids1 : (db1.tags.map Tag.Id).Nodup := List.Nodup.sublist (h1.sub.map _) hc.ids
  have hst0 : st ∈ db0.tags := h1.sub.subset hst1
  have hd0 : d ∈ db0.tags := h1.sub.subset h1.dest
  have hid : st.Id ≠ d.Id := by
    intro h
    have := eq_of_id_eq hids1 hst1 h1.dest h
    subst this
    exact hne hstn.symm
  have hpick : ∀ k ft, ft ∈ pick k E I → ft ∈ db1.fileTags k ∧ ft.TagId = st.Id := by
    intro k ft hft
    cases k
    · simpa [Database.fileTagsByTagId] using hE ft hft
    · simpa [Database.fileTagsByTagId] using hI ft hft
  have hpickfull : 0 < n → ∀ k ft, ft ∈ db1.fileTags k → ft.TagId = st.Id → ft ∈ pick k E I := by
    intro hn k ft hft hid
    obtain ⟨rfl, rfl⟩ := hfull hn
    cases k <;> simp [pick, Database.fileTagsByTagId, hft, hid]
  have hcl : ∀ k, cleared k n → 0 < n := by
    intro k hk
    cases k <;> simp only [cleared] at hk <;> omega
  have hst_row : ∀ k (ft : FileTag), ft ∈ db1.fileTags k → ft.TagId = st.Id →
      ft ∈ db0.fileTags k := by
    intro k ft hft hft_id
    rcases h1.added k ft hft with h | ⟨h, _⟩
    · exact h
    · exact absurd (hft_id.symm.trans h) hid
  refine ⟨?_, ?_, ?_, ?_, ?_, ?_⟩
  · rw [stageDb_tags]
    split
    · exact (List.filter_sublist _).trans h1.sub
    · exact h1.sub
  · rw [stageDb_tags]
    split
    · exact List.mem_filter.2 ⟨h1.dest, by simpa using fun h => hid h.symm⟩
    · exact h1.dest
  · intro t ht0 htn
    by_cases ht1 : t ∈ db1.tags
    · rw [stageDb_tags] at htn
      split at htn
      · rename_i h3
        have htid : t.Id = st.Id := by
          by_contra hcon
          exact htn (List.mem_filter.2 ⟨ht1, by simpa using hcon⟩)
        have := eq_of_id_eq hids1 ht1 hst1 htid
        subst this
        refine ⟨hstn ▸ hs, ?_⟩
        intro k r hr
        refine ((mem_stageDb _ _ _ _ _ _ _ _).1 hr).2 ?_
        cases k <;> simp only [cleared] <;> omega
      · exact absurd ht1 htn
    · obtain ⟨hname, hrows⟩ := h1.gone t ht0 ht1
      refine ⟨hname, ?_⟩
      intro k r hr
      rcases ((mem_stageDb _ _ _ _ _ _ _ _).1 hr).1 with h | ⟨ft, _, rfl⟩
      · exact hrows k r h
      · intro h
        have htd : d = t := eq_of_id_eq hc.ids hd0 ht0 h
        exact ht1 (htd ▸ h1.dest)
  · intro k r hr
    rcases ((mem_stageDb _ _ _ _ _ _ _ _).1 hr).1 with h | ⟨ft, hft, rfl⟩
    · exact h1.added k r h
    · obtain ⟨hft1, hftid⟩ := hpick k ft hft
      refine Or.inr ⟨rfl, st, hst0, hstn ▸ hs, ?_⟩
      have := hst_row k ft hft1 hftid
      rw [← hftid]
      exact this
  · intro k r hr
    rcases h1.kept k r hr with h | ⟨t, ht0, htS, htid, hrow⟩
    · by_cases hrem : cleared k n ∧ r.TagId = st.Id
      · refine Or.inr ⟨st, hst0, hstn ▸ hs, hrem.2.symm, ?_⟩
        refine (mem_stageDb _ _ _ _ _ _ _ _).2 ⟨Or.inr ⟨r, ?_, rfl⟩, fun _ h => hid h.symm⟩
        exact hpickfull (hcl k hrem.1) k r h hrem.2
      · refine Or.inl ((mem_stageDb _ _ _ _ _ _ _ _).2 ⟨Or.inl h, fun hk hr => hrem ⟨hk, hr⟩⟩)
    · refine Or.inr ⟨t, ht0, htS, htid, ?_⟩
      exact (mem_stageDb _ _ _ _ _ _ _ _).2 ⟨Or.inl hrow, fun _ h => hid h.symm⟩
  · intro k h0
    exact nodup_stageDb _ _ _ _ _ _ _ (h1.nodup k h0)

theorem Outcome.tags_sublist {d : Tag} {dn s : String} {db db2 : Database}
    {res : Option MergeError} (ho : Outcome d dn s db res db2) : db2.tags.Sublist db.tags := by
  cases ho with
  | untouched => exact List.Sublist.refl _
  | adding | removing | merged =>
    rw [stageDb_tags]
    split
    · exact List.filter_sublist _
    · exact List.Sublist.refl _

theorem Evolved.outcome {d : Tag} {S : List String} {db0 db1 db2 : Database}
    (hc : db0.Consistent) (h1 : Evolved d S db0 db1) {s : String} (hs : s ∈ S)
    {res : Option MergeError} (ho : Outcome d d.Name s db1 res db2) :
    Reached d S db0 [s] res db2 := by
  have hnames1 : (db1.tags.map Tag.Name).Nodup := List.Nodup.sublist (h1.sub.map _) hc.names
  have hids1 : (db1.tags.map Tag.Id).Nodup := List.Nodup.sublist (h1.sub.map _) hc.ids
  cases ho with
  | untouched err hlate =>
    exact ⟨h1, (fun h => by cases h), fun err s he hl => by cases he; rw [hlate] at hl; cases hl⟩
  | adding st E I err hst hne hE hI hlate =>
    refine ⟨Evolved.stage hc h1 hst hs hne hE hI 0 (fun h => absurd h (by omega)),
      (fun h => by cases h), fun err s he hl => by cases he; rw [hlate] at hl; cases hl⟩
  | removing st err n hst hne hn hlate =>
    refine ⟨Evolved.stage hc h1 hst hs hne (fun _ h => h) (fun _ h => h) n (fun _ => ⟨rfl, rfl⟩),
      (fun h => by cases h), ?_⟩
    intro err' s' he hl t ht0 htn k f hrow
    cases he
    rw [hlate] at hl
    cases hl
    obtain ⟨hst1, hstn⟩ := tagByName_some hst
    have hst0 : st ∈ db0.tags := h1.sub.subset hst1
    have : t = st := eq_of_name_eq hc.names ht0 hst0 (htn.trans hstn.symm)
    subst this
    have hid : t.Id ≠ d.Id := by
      intro h
      have := eq_of_id_eq hids1 hst1 h1.dest h
      subst this
      exact hne hstn.symm
    rcases h1.kept k _ hrow with h | ⟨t', _, _, _, h⟩
    · refine (mem_stageDb _ _ _ _ _ _ _ _).2 ⟨Or.inr ⟨⟨f, t.Id⟩, ?_, rfl⟩, fun _ h => hid h.symm⟩
      cases k <;> simp [pick, Database.fileTagsByTagId, h]
    · exact (mem_stageDb _ _ _ _ _ _ _ _).2 ⟨Or.inl h, fun _ h => hid h.symm⟩
  | merged st hst hne =>
    refine ⟨Evolved.stage hc h1 hst hs hne (fun _ h => h) (fun _ h => h) 3 (fun _ => ⟨rfl, rfl⟩),
      ?_, fun err s he => by cases he⟩
    intro _ s' hs'
    rw [List.mem_singleton] at hs'
    subst hs'
    obtain ⟨hst1, hstn⟩ := tagByName_some hst
    refine ⟨hne, ⟨st, h1.sub.subset hst1, hstn⟩, ?_⟩
    intro t ht htn
    rw [stageDb_tags, if_pos (le_refl 3), List.mem_filter] at ht
    have : t = st := eq_of_name_eq hnames1 ht.1 hst1 (htn.trans hstn.symm)
    subst this
    simp at ht

theorem MergeCommand.mergeSources_tags (φ : Faults) (verbose : Bool) (d : Tag) :
    ∀ (srcs : List String) (w : World) (res : Option MergeError) (w' : World),
      MergeCommand.mergeSources φ verbose d.Name d srcs w = (res, w') →
      w'.db.tags.Sublist w.db.tags := by
  intro srcs
  induction srcs with
  | nil =>
    intro w res w' h
    simp only [MergeCommand.mergeSources, Prod.mk.injEq] at h
    obtain ⟨rfl, rfl⟩ := h
    exact List.Sublist.refl _
  | cons s rest ih =>
    intro w res w' h
    simp only [MergeCommand.mergeSources] at h
    split at h
    · rename_i err w1 h1
      simp only [Prod.mk.injEq] at h
      obtain ⟨rfl, rfl⟩ := h
      exact (MergeCommand.mergeSource_outcome _ _ _ _ _ _ _ _ h1).tags_sublist
    · rename_i w1 h1
      exact (ih w1 res w' h).trans (MergeCommand.mergeSource_outcome _ _ _ _ _ _ _ _ h1).tags_sublist

theorem MergeCommand.mergeSources_reached (φ : Faults) (verbose : Bool) (d : Tag)
    (S : List String) (db0 : Database) (hc : db0.Consistent) :
    ∀ (srcs : List String) (w : World) (res : Option MergeError) (w' : World),
      (∀ s ∈ srcs, s ∈ S) → Evolved d S db0 w.db →
      MergeCommand.mergeSources φ verbose d.Name d srcs w = (res, w') →
      Reached d S db0 srcs res w'.db := by
  intro srcs
  induction srcs with
  | nil =>
    intro w res w' _ hev h
    simp only [MergeCommand.mergeSources, Prod.mk.injEq] at h
    obtain ⟨rfl, rfl⟩ := h
    exact ⟨hev, (fun _ s hs => by cases hs), fun err s he => by cases he⟩
  | cons s rest ih =>
    intro w res w' hS hev h
    simp only [MergeCommand.mergeSources] at h
    split at h
    · rename_i err w1 h1
      simp only [Prod.mk.injEq] at h
      obtain ⟨rfl, rfl⟩ := h
      have hr := Evolved.outcome hc hev (hS s (List.mem_cons_self _ _))
        (MergeCommand.mergeSource_outcome _ _ _ _ _ _ _ _ h1)
      exact ⟨hr.evolved, (fun h => by cases h), hr.late⟩
    · rename_i w1 h1
      have hr := Evolved.outcome hc hev (hS s (List.mem_cons_self _ _))
        (MergeCommand.mergeSource_outcome _ _ _ _ _ _ _ _ h1)
      have hrest := ih w1 res w' (fun x hx => hS x (List.mem_cons_of_mem _ hx)) hr.evolved h
      refine ⟨hrest.evolved, ?_, hrest.late⟩
      intro hn x hx
      rcases List.mem_cons.1 hx with rfl | hx
      · obtain ⟨hne, hex, hgone⟩ := hr.done rfl x (List.mem_singleton_self _)
        exact ⟨hne, hex, fun t ht =>
          hgone t ((MergeCommand.mergeSources_tags _ _ _ _ _ _ _ h).subset ht)⟩
      · exact hrest.done hn x hx

theorem MergeCommand.args_split (args : List String) (h : args ≠ []) :
    args = MergeCommand.sourceNames args ++ [MergeCommand.destName args] := by
  rcases List.eq_nil_or_concat args with rfl | ⟨l, a, rfl⟩
  · exact absurd rfl h
  · simp [MergeCommand.sourceNames, MergeCommand.destName]

theorem MergeCommand.mem_args {args : List String} {x : String} (h : x ∈ args) :
    x = MergeCommand.destName args ∨ x ∈ MergeCommand.sourceNames args := by
  have hne : args ≠ [] := List.ne_nil_of_mem h
  rw [MergeCommand.args_split args hne] at h
  rcases List.mem_append.1 h with h | h
  · exact Or.inr h
  · exact Or.inl (List.mem_singleton.1 h)

theorem MergeCommand.sourceNames_subset {args : List String} {x : String}
    (h : x ∈ MergeCommand.sourceNames args) : x ∈ args :=
  List.mem_of_mem_take h

theorem MergeCommand.destName_mem {args : List String} (h : args ≠ []) :
    MergeCommand.destName args ∈ args := by
  have := MergeCommand.args_split args h
  rw [List.mem_iff_append] at *
  exact ⟨MergeCommand.sourceNames args, [], this⟩

theorem MergeCommand.Exec_reached (φ : Faults) (options : Options) (args : List String)
    (w : World) (res : Option MergeError) (w' : World) (hc : w.db.Consistent)
    (h : MergeCommand.Exec φ options args w = (res, w')) :
    (w'.db = w.db ∧ ∃ err, res = some err ∧ err.lateSource = none) ∨
    (2 ≤ args.length ∧ ∃ d, w.db.tagByName (MergeCommand.destName args) = some d ∧
      Reached d (MergeCommand.sourceNames args) w.db (MergeCommand.sourceNames args) res
        w'.db) := by
  unfold MergeCommand.Exec at h
  simp only at h
  split at h
  · simp only [Prod.mk.injEq] at h
    obtain ⟨rfl, rfl⟩ := h
    exact Or.inl ⟨rfl, _, rfl, rfl⟩
  rename_i hlen
  split at h
  · rename_i err w1 h1
    simp only [Prod.mk.injEq] at h
    obtain ⟨rfl, rfl⟩ := h
    exact Or.inl ⟨(read_db h1).1, _, rfl, rfl⟩
  rename_i u w1 h1
  have hw1 := (read_db h1).1
  split at h
  · rename_i err w2 h2
    simp only [Prod.mk.injEq] at h
    obtain ⟨rfl, rfl⟩ := h
    exact Or.inl ⟨by rw [(read_db h2).1, hw1], _, rfl, rfl⟩
  · rename_i w2 h2
    simp only [Prod.mk.injEq] at h
    obtain ⟨rfl, rfl⟩ := h
    exact Or.inl ⟨by rw [(read_db h2).1, hw1], _, rfl, rfl⟩
  rename_i d w2 h2
  have hw2 : w2.db = w.db := by rw [(read_db h2).1, hw1]
  have hd : w.db.tagByName (MergeCommand.destName args) = some d := by
    rw [← hw1]; exact ((read_db h2).2 _ rfl).symm
  obtain ⟨hd0, hdn⟩ := tagByName_some hd
  refine Or.inr ⟨by omega, d, hd, ?_⟩
  rw [← hdn] at h
  exact MergeCommand.mergeSources_reached φ _ d _ w.db hc _ w2 res w' (fun _ hs => hs)
    (by rw [hw2]; exact Evolved.start hd0) h

/-! ## The merge: result, taggings kept, frame -/

theorem sampleWorld_consistent : sampleWorld.db.Consistent :=
  ⟨by decide, by decide⟩

theorem Evolved.mem_of_row {d : Tag} {S : List String} {db0 db : Database}
    (h : Evolved d S db0 db) {t : Tag} (ht : t ∈ db0.tags) {k : Kind} {r : FileTag}
    (hr : r ∈ db.fileTags k) (hid : r.TagId = t.Id) : t ∈ db.tags := by
  by_contra hn
  exact (h.gone t ht hn).2 k r hr hid

/-- C2: on a consistent store, when `MergeCommand.Exec` returns nil the
destination carries, kind by kind, exactly its own earlier files and those of
the named sources, and no source exists or has a row any more. -/
theorem merge_success_postcondition (φ : Faults) (options : Options) (args : List String)
    (w : World) (hc : w.db.Consistent)
    (hnil : (MergeCommand.Exec φ options args w).1 = none) :
    MergedInto args w.db (MergeCommand.Exec φ options args w).2.db := by
  rcases MergeCommand.Exec_reached φ options args w (MergeCommand.Exec φ options args w).1
    (MergeCommand.Exec φ options args w).2 hc rfl with
    ⟨_, err, he, _⟩ | ⟨_, d, hd, hr⟩
  · rw [hnil] at he; cases he
  have hev := hr.evolved
  have hdone := hr.done hnil
  obtain ⟨hd0, _⟩ := tagByName_some hd
  have hmain : ∀ k f, (⟨f, d.Id⟩ : FileTag) ∈ (MergeCommand.Exec φ options args w).2.db.fileTags k ↔
      ((⟨f, d.Id⟩ : FileTag) ∈ w.db.fileTags k ∨
        ∃ t ∈ w.db.tags, t.Name ∈ MergeCommand.sourceNames args ∧
          (⟨f, t.Id⟩ : FileTag) ∈ w.db.fileTags k) := by
    intro k f
    constructor
    · intro h
      rcases hev.added k _ h with h | ⟨_, t, ht, hts, hrow⟩
      · exact Or.inl h
      · exact Or.inr ⟨t, ht, hts, hrow⟩
    · rintro (h | ⟨t, ht, hts, hrow⟩)
      · rcases hev.kept k _ h with h | ⟨_, _, _, _, h⟩
        · exact h
        · exact h
      · rcases hev.kept k _ hrow with h | ⟨_, _, _, _, h⟩
        · exact absurd rfl ((hdone _ hts).2.2 t (hev.mem_of_row ht h rfl))
        · exact h
  refine ⟨d, hd, hev.dest, hmain, ?_, ?_⟩
  · intro s hs
    obtain ⟨_, hex, hgone⟩ := hdone s hs
    refine ⟨hex, hgone, ?_⟩
    intro t ht htn k r hr hid
    exact hgone t (hev.mem_of_row ht hr hid) htn
  · intro hempty f
    constructor
    · rintro ⟨k, h⟩
      rcases (hmain k f).1 h with h | h
      · exact absurd h (hempty k f)
      · exact ⟨k, h⟩
    · rintro ⟨k, h⟩
      exact ⟨k, (hmain k f).2 (Or.inr h)⟩

/-- Witness of C2: merging X and Y into C on the sample store. -/
theorem merge_success_postcondition_witness :
    sampleWorld.db.Consistent ∧
    (MergeCommand.Exec noFaults [] ["X", "Y", "C"] sampleWorld).1 = none ∧
    MergedInto ["X", "Y", "C"] sampleWorld.db
      (MergeCommand.Exec noFaults [] ["X", "Y", "C"] sampleWorld).2.db :=
  ⟨sampleWorld_consistent, by decide,
    merge_success_postcondition noFaults [] ["X", "Y", "C"] sampleWorld sampleWorld_consistent
      (by decide)⟩

/-- C3: on a consistent store, whatever store call fails (a failed call leaves
the store as it was), after `MergeCommand.Exec` the destination still exists,
every file that had the destination or a named source with some kind still has
the destination or a surviving source with that kind, and after a failure in the
removal or deletion steps of a source the destination carries all rows of that
source. -/
theorem merge_never_loses_tagging (φ : Faults) (options : Options) (args : List String)
    (w : World) (hc : w.db.Consistent) :
    NoTaggingLost args (MergeCommand.Exec φ options args w).1 w.db
      (MergeCommand.Exec φ options args w).2.db := by
  rcases MergeCommand.Exec_reached φ options args w (MergeCommand.Exec φ options args w).1
    (MergeCommand.Exec φ options args w).2 hc rfl with
    ⟨hdb, err, he, hl⟩ | ⟨_, d, hd, hr⟩
  · rw [hdb]
    refine ⟨fun t ht _ => ht, ?_, ?_⟩
    · intro k t f ht hta hrow
      refine ⟨t, ht, ?_, hrow⟩
      rcases MergeCommand.mem_args hta with h | h
      · exact Or.inl h
      · exact Or.inr h
    · intro err' s he' hl'
      rw [he] at he'
      cases he'
      rw [hl] at hl'
      cases hl'
  have hev := hr.evolved
  obtain ⟨hd0, hdn⟩ := tagByName_some hd
  refine ⟨?_, ?_, ?_⟩
  · intro t ht htn
    have : t = d := eq_of_name_eq hc.names ht hd0 (htn.trans hdn.symm)
    exact this ▸ hev.dest
  · intro k t f ht hta hrow
    rcases hev.kept k _ hrow with h | ⟨_, _, _, _, h⟩
    · refine ⟨t, hev.mem_of_row ht h rfl, ?_, h⟩
      rcases MergeCommand.mem_args hta with h | h
      · exact Or.inl h
      · exact Or.inr h
    · exact ⟨d, hev.dest, Or.inl hdn, h⟩
  · intro err s he hl d' hd' hdn' t ht htn k f hrow
    have : d' = d := eq_of_name_eq hc.names hd' hd0 (hdn'.trans hdn.symm)
    subst this
    exact hr.late err s he hl t ht htn k f hrow

/-- Witness of C3: the deletion of X fails after its rows were copied and removed. -/
theorem merge_never_loses_tagging_witness :
    sampleWorld.db.Consistent ∧
    NoTaggingLost ["X", "Y", "C"]
      (MergeCommand.Exec (fun i => if i = 9 then some "disk failure" else none) []
        ["X", "Y", "C"] sampleWorld).1 sampleWorld.db
      (MergeCommand.Exec (fun i => if i = 9 then some "disk failure" else none) []
        ["X", "Y", "C"] sampleWorld).2.db :=
  ⟨sampleWorld_consistent,
    merge_never_loses_tagging (fun i => if i = 9 then some "disk failure" else none) []
      ["X", "Y", "C"] sampleWorld sampleWorld_consistent⟩

/-- C10: on a consistent store and for every outcome, `MergeCommand.Exec`
leaves every tag it is not given, and the rows of that tag, as they were; it
deletes only named sources, creates no tag, and adds rows only to the
destination. -/
theorem merge_touches_only_arguments (φ : Faults) (options : Options) (args : List String)
    (w : World) (hc : w.db.Consistent) :
    OnlyArgumentsTouched args w.db (MergeCommand.Exec φ options args w).2.db := by
  rcases MergeCommand.Exec_reached φ options args w (MergeCommand.Exec φ options args w).1
    (MergeCommand.Exec φ options args w).2 hc rfl with
    ⟨hdb, _⟩ | ⟨hlen, d, hd, hr⟩
  · rw [hdb]
    exact ⟨fun t ht _ => ⟨ht, fun _ _ _ => Iff.rfl⟩, fun t ht hn => absurd ht hn,
      fun t ht => ht, fun k r hr hn => absurd hr hn⟩
  have hev := hr.evolved
  obtain ⟨hd0, hdn⟩ := tagByName_some hd
  have hne : args ≠ [] := by
    intro h; rw [h] at hlen; simp at hlen
  refine ⟨?_, ?_, fun t ht => hev.sub.subset ht, ?_⟩
  · intro t ht hta
    have htin : t ∈ (MergeCommand.Exec φ options args w).2.db.tags := by
      by_contra hn
      exact hta (MergeCommand.sourceNames_subset (hev.gone t ht hn).1)
    refine ⟨htin, ?_⟩
    intro k r hid
    constructor
    · intro h
      rcases hev.added k r h with h | ⟨hrd, _⟩
      · exact h
      · have : t = d := eq_of_id_eq hc.ids ht hd0 (hid.symm.trans hrd)
        subst this
        exact absurd (hdn ▸ MergeCommand.destName_mem hne) hta
    · intro h
      rcases hev.kept k r h with h | ⟨t', ht', hts, hid', _⟩
      · exact h
      · have : t' = t := eq_of_id_eq hc.ids ht' ht (hid'.trans hid)
        subst this
        exact absurd (MergeCommand.sourceNames_subset hts) hta
  · intro t ht hn
    exact (hev.gone t ht hn).1
  · intro k r hr hn
    rcases hev.added k r hr with h | ⟨hrd, _⟩
    · exact absurd h hn
    · exact ⟨d, hd, hrd⟩

/-- Witness of C10: an add fails while X is merged into C; Y and Z are not named. -/
theorem merge_touches_only_arguments_witness :
    sampleWorld.db.Consistent ∧
    OnlyArgumentsTouched ["X", "C"] sampleWorld.db
      (MergeCommand.Exec (fun i => if i = 6 then some "disk failure" else none) []
        ["X", "C"] sampleWorld).2.db :=
  ⟨sampleWorld_consistent,
    merge_touches_only_arguments (fun i => if i = 6 then some "disk failure" else none) []
      ["X", "C"] sampleWorld sampleWorld_consistent⟩

/-! ## The merge: a second run, and a source equal to the destination -/

theorem read_cases {α : Type} (φ : Faults) (w : World) (c : Call) (v : Database → α) :
    (∃ e, φ w.calls.length = some e ∧ w.read φ c v = (.error e, w.record c)) ∨
    (φ w.calls.length = none ∧ w.read φ c v = (.ok (v w.db), w.record c)) := by
  unfold World.read
  cases h : φ w.calls.length with
  | none => exact Or.inr ⟨rfl, rfl⟩
  | some e => exact Or.inl ⟨e, rfl, rfl⟩

theorem write_cases (φ : Faults) (w : World) (c : Call) (eff : Database → Database) :
    (∃ e, φ w.calls.length = some e ∧ w.write φ c eff = (.error e, w.record c)) ∨
    (φ w.calls.length = none ∧
      w.write φ c eff = (.ok (), { w.record c with db := eff w.db })) := by
  unfold World.write
  cases h : φ w.calls.length with
  | none => exact Or.inr ⟨rfl, rfl⟩
  | some e => exact Or.inl ⟨e, rfl, rfl⟩

theorem MergeCommand.sourceNames_cons (a b : String) (rest : List String) :
    MergeCommand.sourceNames (a :: b :: rest) = a :: MergeCommand.sourceNames (b :: rest) := by
  simp [MergeCommand.sourceNames]

theorem MergeCommand.destName_cons (a b : String) (rest : List String) :
    MergeCommand.destName (a :: b :: rest) = MergeCommand.destName (b :: rest) := by
  simp [MergeCommand.destName]

theorem MergeCommand.two_args {args : List String} (h : 2 ≤ args.length) :
    ∃ a b rest, args = a :: b :: rest := by
  match args, h with
  | a :: b :: rest, _ => exact ⟨a, b, rest, rfl⟩

theorem MergeCommand.mergeSource_same (φ : Faults) (verbose : Bool) (dn : String) (d : Tag)
    (w : World) : MergeCommand.mergeSource φ verbose dn d dn w = (some .sameNames, w) := by
  unfold MergeCommand.mergeSource
  rw [if_pos rfl]

theorem MergeCommand.mergeSource_none_ne {φ : Faults} {verbose : Bool} {dn : String} {d : Tag}
    {s : String} {w w' : World}
    (h : MergeCommand.mergeSource φ verbose dn d s w = (none, w')) : s ≠ dn := by
  rintro rfl
  rw [MergeCommand.mergeSource_same] at h
  cases h

theorem MergeCommand.mergeSources_same (φ : Faults) (verbose : Bool) (dn : String) (d : Tag) :
    ∀ (srcs : List String) (w : World), dn ∈ srcs →
      (MergeCommand.mergeSources φ verbose dn d srcs w).1 ≠ none := by
  intro srcs
  induction srcs with
  | nil => intro w h; cases h
  | cons s rest ih =>
    intro w hmem
    simp only [MergeCommand.mergeSources]
    split
    · simp
    · rename_i w1 h1
      have hne := MergeCommand.mergeSource_none_ne h1
      rcases List.mem_cons.1 hmem with h | h
      · exact absurd h.symm hne
      · exact ih w1 h

theorem MergeCommand.mergeSource_missing (φ : Faults) (verbose : Bool) (dn : String) (d : Tag)
    (s : String) (w : World) (hne : s ≠ dn) (hgone : w.db.tagByName s = none) :
    (MergeCommand.mergeSource φ verbose dn d s w).2.db = w.db ∧
    (MergeCommand.mergeSource φ verbose dn d s w).1 ≠ none ∧
    (φ w.calls.length = none →
      (MergeCommand.mergeSource φ verbose dn d s w).1 = some (.noSuchTag s)) := by
  unfold MergeCommand.mergeSource
  rw [if_neg hne]
  rcases read_cases φ w (Call.TagByName s) (fun db => db.tagByName s) with
    ⟨e, he, hr⟩ | ⟨he, hr⟩
  · simp only [TagByName, hr]
    exact ⟨rfl, by simp, fun h => by rw [he] at h; cases h⟩
  · simp only [TagByName, hr, hgone]
    exact ⟨rfl, by simp, by simp⟩

theorem MergeCommand.Exec_rerun (φ : Faults) (options : Options) (args : List String)
    (w : World) (hlen : 2 ≤ args.length)
    (hd : ∃ d ∈ w.db.tags, d.Name = MergeCommand.destName args)
    (hne : args.headD "" ≠ MergeCommand.destName args)
    (hgone : w.db.tagByName (args.headD "") = none) :
    (MergeCommand.Exec φ options args w).2.db = w.db ∧
    (MergeCommand.Exec φ options args w).1 ≠ none ∧
    ((∀ i, φ i = none) →
      (MergeCommand.Exec φ options args w).1 = some (.noSuchTag (args.headD ""))) := by
  obtain ⟨a, b, rest, rfl⟩ := MergeCommand.two_args hlen
  simp only [List.headD_cons] at hne hgone ⊢
  unfold MergeCommand.Exec
  simp only
  rw [if_neg (by simp)]
  rcases read_cases φ w Call.Open (fun _ => ()) with ⟨e, he, hr⟩ | ⟨he, hr⟩
  · simp only [Open, hr]
    exact ⟨rfl, by simp, fun h => by rw [h] at he; cases he⟩
  simp only [Open, hr]
  rcases read_cases φ (w.record Call.Open) (Call.TagByName (MergeCommand.destName (a :: b :: rest)))
    (fun db => db.tagByName (MergeCommand.destName (a :: b :: rest))) with
    ⟨e, he2, hr2⟩ | ⟨he2, hr2⟩
  · simp only [TagByName, hr2]
    exact ⟨rfl, by simp, fun h => by rw [h] at he2; cases he2⟩
  simp only [TagByName, hr2]
  obtain ⟨d, hdm, hdn⟩ := hd
  have hdb : (w.record Call.Open).db = w.db := rfl
  obtain ⟨d', hd'⟩ := tagByName_isSome hdm
  rw [hdn] at hd'
  rw [hdb, hd']
  simp only [MergeCommand.sourceNames_cons, MergeCommand.mergeSources]
  have key := MergeCommand.mergeSource_missing φ (HasOption options "--verbose")
    (MergeCommand.destName (a :: b :: rest)) d' a
    ((w.record Call.Open).record (Call.TagByName (MergeCommand.destName (a :: b :: rest))))
    hne hgone
  split
  · rename_i err w1 h1
    rw [h1] at key
    exact ⟨key.1, by simp, fun h => key.2.2 (h _)⟩
  · rename_i w1 h1
    rw [h1] at key
    exact absurd rfl key.2.1

/-- C5: on a consistent store, after `MergeCommand.Exec` returned nil, running
it again with the same arguments leaves the store as the first run left it and
fails, with the error `no such tag` for the first source when no store call
fails; no association table gains a duplicate row. -/
theorem merge_rerun_rejected (φ : Faults) (options : Options) (args : List String) (w : World)
    (φ2 : Faults) (options2 : Options) (hc : w.db.Consistent)
    (hnil : (MergeCommand.Exec φ options args w).1 = none) :
    RerunRejected args φ2 w.db (MergeCommand.Exec φ options args w).2.db
      (MergeCommand.Exec φ2 options2 args (MergeCommand.Exec φ options args w).2) := by
  rcases MergeCommand.Exec_reached φ options args w (MergeCommand.Exec φ options args w).1
    (MergeCommand.Exec φ options args w).2 hc rfl with
    ⟨_, err, he, _⟩ | ⟨hlen, d, hd, hr⟩
  · rw [hnil] at he; cases he
  obtain ⟨a, b, rest, hargs⟩ := MergeCommand.two_args hlen
  have hsrc : args.headD "" ∈ MergeCommand.sourceNames args := by
    rw [hargs, MergeCommand.sourceNames_cons]
    exact List.mem_cons_self _ _
  obtain ⟨hne, _, hgone⟩ := hr.done hnil _ hsrc
  obtain ⟨_, hdn⟩ := tagByName_some hd
  have hnone : (MergeCommand.Exec φ options args w).2.db.tagByName (args.headD "") = none := by
    cases h : (MergeCommand.Exec φ options args w).2.db.tagByName (args.headD "") with
    | none => rfl
    | some t =>
      obtain ⟨ht, htn⟩ := tagByName_some h
      exact absurd htn (hgone t ht)
  have key := MergeCommand.Exec_rerun φ2 options2 args (MergeCommand.Exec φ options args w).2
    hlen ⟨d, hr.evolved.dest, hdn⟩ (hdn ▸ hne) hnone
  refine ⟨key.1, key.2.1, ?_, ?_⟩
  · intro h
    have := key.2.2 h
    exact ⟨this, by rw [this]; rfl⟩
  · intro k h0
    rw [key.1]
    exact hr.evolved.nodup k h0

/-- Witness of C5: merging X and Y into C twice on the sample store. -/
theorem merge_rerun_rejected_witness :
    sampleWorld.db.Consistent ∧
    (MergeCommand.Exec noFaults [] ["X", "Y", "C"] sampleWorld).1 = none ∧
    RerunRejected ["X", "Y", "C"] noFaults sampleWorld.db
      (MergeCommand.Exec noFaults [] ["X", "Y", "C"] sampleWorld).2.db
      (MergeCommand.Exec noFaults [] ["X", "Y", "C"]
        (MergeCommand.Exec noFaults [] ["X", "Y", "C"] sampleWorld).2) :=
  ⟨sampleWorld_consistent, by decide,
    merge_rerun_rejected noFaults [] ["X", "Y", "C"] sampleWorld noFaults []
      sampleWorld_consistent (by decide)⟩

/-- C1 fails as stated: with X and C existing, `Merge(["X","C"], "C")` returns
the `same names` error only after X has been merged into C and deleted, and
`Merge(["Q","C"], "C")` with no tag Q returns the `no such tag` error. -/
theorem merge_same_name_after_source_mutates :
    sampleWorld.db.tagByName (MergeCommand.destName ["X", "C", "C"]) = some ⟨3, "C"⟩ ∧
    MergeCommand.destName ["X", "C", "C"] ∈ MergeCommand.sourceNames ["X", "C", "C"] ∧
    (MergeCommand.Exec noFaults [] ["X", "C", "C"] sampleWorld).1 = some .sameNames ∧
    (MergeCommand.Exec noFaults [] ["X", "C", "C"] sampleWorld).2.db ≠ sampleWorld.db ∧
    Call.DeleteTag 1 ∈ (MergeCommand.Exec noFaults [] ["X", "C", "C"] sampleWorld).2.calls ∧
    (MergeCommand.Exec noFaults [] ["Q", "C", "C"] sampleWorld).1 = some (.noSuchTag "Q") := by
  decide

theorem MergeCommand.mergeSources_then_same (φ : Faults) (verbose : Bool) (dn : String)
    (d : Tag) (post : List String) :
    ∀ (before : List String) (w : World),
      mergeSources φ verbose dn d (before ++ dn :: post) w =
        thenSameNames (mergeSources φ verbose dn d before w) := by
  intro before
  induction before with
  | nil =>
    intro w
    simp only [List.nil_append, mergeSources, mergeSource_same]
    rfl
  | cons s rest ih =>
    intro w
    simp only [List.cons_append, mergeSources]
    rcases h : mergeSource φ verbose dn d s w with ⟨r, w1⟩
    cases r with
    | none => exact ih w1
    | some err => rfl

theorem MergeCommand.destName_concat (before : List String) (dn : String) :
    destName (before ++ [dn]) = dn := by
  simp [destName]

theorem MergeCommand.sourceNames_concat (before : List String) (dn : String) :
    sourceNames (before ++ [dn]) = before := by
  simp [sourceNames]

theorem MergeCommand.Exec_then_same (φ : Faults) (options : Options) (dn : String)
    (before post : List String) (w : World) (hne : before ≠ []) :
    Exec φ options ((before ++ dn :: post) ++ [dn]) w =
      thenSameNames (Exec φ options (before ++ [dn]) w) := by
  have hlen1 : ¬ ((before ++ dn :: post) ++ [dn]).length < 2 := by
    simp only [List.length_append, List.length_cons, List.length_nil]
    omega
  have hlen2 : ¬ (before ++ [dn]).length < 2 := by
    have : 0 < before.length := List.length_pos.2 hne
    simp only [List.length_append, List.length_cons, List.length_nil]
    omega
  unfold Exec
  simp only
  rw [if_neg hlen1, if_neg hlen2, destName_concat, destName_concat, sourceNames_concat,
    sourceNames_concat]
  rcases h1 : Open φ w with ⟨r1, w1⟩
  cases r1 with
  | error e => rfl
  | ok u =>
    simp only
    rcases h2 : TagByName φ w1 dn with ⟨r2, w2⟩
    cases r2 with
    | error e => rfl
    | ok t =>
      cases t with
      | none => rfl
      | some d => exact mergeSources_then_same φ _ dn d post before w2

/-- C1 as amended: when the destination exists and is named among the sources,
`MergeCommand.Exec` fails.  When it is the first source and the two look-ups
succeed, the error is `same names`, the database is untouched and no adding,
removing or deleting call has been made.  When sources stand before it, the
command does what the merge of those sources alone does and then, if that
succeeded, returns the `same names` error. -/
theorem merge_same_name_first (φ : Faults) (options : Options) (args : List String) (w : World)
    (d : Tag) (hlen : 2 ≤ args.length)
    (hd : w.db.tagByName (MergeCommand.destName args) = some d) :
    (MergeCommand.destName args ∈ MergeCommand.sourceNames args →
      (MergeCommand.Exec φ options args w).1 ≠ none) ∧
    (args.head? = some (MergeCommand.destName args) → φ w.calls.length = none →
      φ (w.calls.length + 1) = none →
      MergeCommand.Exec φ options args w = RejectedAtOnce args w ∧
        ∀ c ∈ (MergeCommand.Exec φ options args w).2.calls, c ∉ w.calls → c.mutates = false) ∧
    (∀ before post, before ≠ [] →
      MergeCommand.sourceNames args = before ++ MergeCommand.destName args :: post →
      MergeCommand.Exec φ options args w =
        thenSameNames
          (MergeCommand.Exec φ options (before ++ [MergeCommand.destName args]) w)) := by
  have hthird : ∀ before post, before ≠ [] →
      MergeCommand.sourceNames args = before ++ MergeCommand.destName args :: post →
      MergeCommand.Exec φ options args w =
        thenSameNames
          (MergeCommand.Exec φ options (before ++ [MergeCommand.destName args]) w) := by
    intro before post hne hsrc
    have hargs := MergeCommand.args_split args (by intro h0; rw [h0] at hlen; simp at hlen)
    rw [hsrc] at hargs
    have key := MergeCommand.Exec_then_same φ options (MergeCommand.destName args) before post w
      hne
    rw [← hargs] at key
    exact key
  obtain ⟨a, b, rest, rfl⟩ := MergeCommand.two_args hlen
  refine ⟨?_, ?_, hthird⟩
  · intro hmem
    unfold MergeCommand.Exec
    simp only
    rw [if_neg (by simp)]
    rcases read_cases φ w Call.Open (fun _ => ()) with ⟨e, he, hr⟩ | ⟨he, hr⟩
    · simp only [Open, hr]; simp
    simp only [Open, hr]
    rcases read_cases φ (w.record Call.Open)
      (Call.TagByName (MergeCommand.destName (a :: b :: rest)))
      (fun db => db.tagByName (MergeCommand.destName (a :: b :: rest))) with
      ⟨e, he2, hr2⟩ | ⟨he2, hr2⟩
    · simp only [TagByName, hr2]; simp
    simp only [TagByName, hr2]
    have hdb : (w.record Call.Open).db = w.db := rfl
    rw [hdb, hd]
    exact MergeCommand.mergeSources_same _ _ _ _ _ _ hmem
  · intro hhead h0 h1
    simp only [List.head?_cons, Option.some.injEq] at hhead
    have hE : MergeCommand.Exec φ options (a :: b :: rest) w =
        RejectedAtOnce (a :: b :: rest) w := by
      unfold MergeCommand.Exec
      simp only
      rw [if_neg (by simp)]
      have hr : Open φ w = (.ok (), w.record Call.Open) := by
        simp only [Open, World.read, h0]
      have hr2 : TagByName φ (w.record Call.Open) (MergeCommand.destName (a :: b :: rest)) =
          (.ok (some d), (w.record Call.Open).record
            (Call.TagByName (MergeCommand.destName (a :: b :: rest)))) := by
        have hl : (w.record Call.Open).calls.length = w.calls.length + 1 := by
          simp [World.record]
        have hdb : (w.record Call.Open).db = w.db := rfl
        simp only [TagByName, World.read, hl, h1, hdb, hd]
      simp only [hr, hr2, MergeCommand.sourceNames_cons, MergeCommand.mergeSources]
      have hsame := MergeCommand.mergeSource_same φ (HasOption options "--verbose")
        (MergeCommand.destName (a :: b :: rest)) d ((w.record Call.Open).record
          (Call.TagByName (MergeCommand.destName (a :: b :: rest))))
      rw [← hhead] at hsame
      rw [← hhead, hsame]
      simp [RejectedAtOnce, World.record, ← hhead]
    refine ⟨hE, ?_⟩
    rw [hE]
    intro c hc hn
    simp only [RejectedAtOnce, List.mem_append, List.mem_cons, List.mem_singleton,
      List.not_mem_nil, or_false] at hc
    rcases hc with hc | rfl | rfl
    · exact absurd hc hn
    · rfl
    · rfl

/-- Witness of C1 as amended: `Merge(["C","X"], "C")` on the sample store is
rejected at once, and `Merge(["X","C"], "C")` does what `Merge(["X"], "C")`
does before it is rejected. -/
theorem merge_same_name_first_witness :
    2 ≤ ["C", "X", "C"].length ∧
    sampleWorld.db.tagByName (MergeCommand.destName ["C", "X", "C"]) = some ⟨3, "C"⟩ ∧
    (MergeCommand.Exec noFaults [] ["C", "X", "C"] sampleWorld).1 ≠ none ∧
    MergeCommand.Exec noFaults [] ["C", "X", "C"] sampleWorld =
      RejectedAtOnce ["C", "X", "C"] sampleWorld ∧
    MergeCommand.Exec noFaults [] ["X", "C", "C"] sampleWorld =
      thenSameNames (MergeCommand.Exec noFaults [] (["X"] ++ ["C"]) sampleWorld) :=
  ⟨by decide, by decide,
    (merge_same_name_first noFaults [] ["C", "X", "C"] sampleWorld ⟨3, "C"⟩ (by decide)
      (by decide)).1 (by decide),
    ((merge_same_name_first noFaults [] ["C", "X", "C"] sampleWorld ⟨3, "C"⟩ (by decide)
      (by decide)).2.1 (by decide) rfl rfl).1,
    (merge_same_name_first noFaults [] ["X", "C", "C"] sampleWorld ⟨3, "C"⟩ (by decide)
      (by decide)).2.2 ["X"] [] (by decide) (by decide)⟩

/-! ## The merge: which error is returned -/

theorem read_error {α : Type} {φ : Faults} {w w' : World} {c : Call} {v : Database → α}
    {e : String} (h : w.read φ c v = (.error e, w')) :
    w'.calls = w.calls ++ [c] ∧ φ w.calls.length = some e := by
  rcases read_cases φ w c v with ⟨e', he, hr⟩ | ⟨_, hr⟩
  · rw [hr] at h
    simp only [Prod.mk.injEq, Except.error.injEq] at h
    obtain ⟨rfl, rfl⟩ := h
    exact ⟨rfl, he⟩
  · rw [hr] at h
    simp at h

theorem write_error {φ : Faults} {w w' : World} {c : Call} {eff : Database → Database}
    {e : String} (h : w.write φ c eff = (.error e, w')) :
    w'.calls = w.calls ++ [c] ∧ φ w.calls.length = some e := by
  rcases write_cases φ w c eff with ⟨e', he, hr⟩ | ⟨_, hr⟩
  · rw [hr] at h
    simp only [Prod.mk.injEq, Except.error.injEq] at h
    obtain ⟨rfl, rfl⟩ := h
    exact ⟨rfl, he⟩
  · rw [hr] at h
    simp at h

/-- C4 fails as stated: when fetching the explicit rows of the source X fails,
the error names X and the cause but not the destination C; when adding a row to
C fails, the error names C, the file and the cause but not the source X. -/
theorem merge_error_omits_a_name :
    (MergeCommand.Exec (failAt 3) [] ["X", "C"] sampleWorld).1.map MergeError.message =
      some "could not retrieve explicit taggings for tag 'X': disk failure" ∧
    ¬ mentions "could not retrieve explicit taggings for tag 'X': disk failure" "C" ∧
    (MergeCommand.Exec (failAt 5) [] ["X", "C"] sampleWorld).1.map MergeError.message =
      some "could not add explicit tag 'C' to file #10: disk failure" ∧
    ¬ mentions "could not add explicit tag 'C' to file #10: disk failure" "X" := by
  decide

theorem Succeeded.nothing (φ : Faults) (w w' : World) (h : w'.calls = w.calls) :
    Succeeded φ w [] w' :=
  ⟨by rw [h, List.append_nil], fun i hi => absurd hi (Nat.not_lt_zero i)⟩

theorem Succeeded.infoIf {φ : Faults} {w w1 : World} {made : List Call}
    (h : Succeeded φ w made w1) (verbose : Bool) (text : String) :
    Succeeded φ w made (w1.infoIf verbose text) :=
  ⟨by rw [infoIf_calls]; exact h.1, h.2⟩

theorem Succeeded.trans {φ : Faults} {w w1 w2 : World} {a b : List Call}
    (h1 : Succeeded φ w a w1) (h2 : Succeeded φ w1 b w2) : Succeeded φ w (a ++ b) w2 := by
  refine ⟨by rw [h2.1, h1.1, List.append_assoc], ?_⟩
  intro i hi
  by_cases hia : i < a.length
  · exact h1.2 i hia
  · have hj := h2.2 (i - a.length) (by rw [List.length_append] at hi; omega)
    rw [h1.1, List.length_append] at hj
    rw [← hj]
    congr 1
    omega

theorem Succeeded.then_failed {φ : Faults} {w w1 w' : World} {a b : List Call} {c : Call}
    {e : String} (h1 : Succeeded φ w a w1) (h2 : FailedAfter φ w1 b c e w') :
    FailedAfter φ w (a ++ b) c e w' := by
  refine ⟨by rw [h2.1, h1.1, List.append_assoc, List.append_assoc], ?_, ?_⟩
  · intro i hi
    by_cases hia : i < a.length
    · exact h1.2 i hia
    · have hj := h2.2.1 (i - a.length) (by rw [List.length_append] at hi; omega)
      rw [h1.1, List.length_append] at hj
      rw [← hj]
      congr 1
      omega
  · have hj := h2.2.2
    rw [h1.1, List.length_append] at hj
    rw [← hj, List.length_append]
    congr 1
    omega

theorem Succeeded.last {φ : Faults} {w w' : World} {made : List Call}
    (h : Succeeded φ w made w') (hne : made ≠ []) : φ (w'.calls.length - 1) = none := by
  have hpos : 0 < made.length := List.length_pos.2 hne
  have := h.2 (made.length - 1) (by omega)
  rw [← this, h.1, List.length_append]
  congr 1
  omega

theorem FailedAfter.last_failed {φ : Faults} {w w' : World} {made : List Call} {c : Call}
    {e : String} (h : FailedAfter φ w made c e w') : φ (w'.calls.length - 1) = some e := by
  rw [← h.2.2, h.1]
  simp only [List.length_append, List.length_cons, List.length_nil]
  congr 1

theorem read_succeeded {α : Type} {φ : Faults} {w w' : World} {c : Call} {v : Database → α}
    {a : α} (h : w.read φ c v = (.ok a, w')) : Succeeded φ w [c] w' := by
  rcases read_cases φ w c v with ⟨e, _, hr⟩ | ⟨he, hr⟩
  · rw [hr] at h; simp at h
  · rw [hr] at h
    simp only [Prod.mk.injEq] at h
    obtain ⟨_, rfl⟩ := h
    refine ⟨rfl, ?_⟩
    intro i hi
    have : i = 0 := by simpa using hi
    subst this
    exact he

theorem write_succeeded {φ : Faults} {w w' : World} {c : Call} {eff : Database → Database}
    {u : Unit} (h : w.write φ c eff = (.ok u, w')) : Succeeded φ w [c] w' := by
  rcases write_cases φ w c eff with ⟨e, _, hr⟩ | ⟨he, hr⟩
  · rw [hr] at h; simp at h
  · rw [hr] at h
    simp only [Prod.mk.injEq] at h
    obtain ⟨_, rfl⟩ := h
    refine ⟨rfl, ?_⟩
    intro i hi
    have : i = 0 := by simpa using hi
    subst this
    exact he

theorem read_failed {α : Type} {φ : Faults} {w w' : World} {c : Call} {v : Database → α}
    {e : String} (h : w.read φ c v = (.error e, w')) : FailedAfter φ w [] c e w' :=
  ⟨(read_error h).1, fun i hi => absurd hi (Nat.not_lt_zero i), (read_error h).2⟩

theorem write_failed {φ : Faults} {w w' : World} {c : Call} {eff : Database → Database}
    {e : String} (h : w.write φ c eff = (.error e, w')) : FailedAfter φ w [] c e w' :=
  ⟨(write_error h).1, fun i hi => absurd hi (Nat.not_lt_zero i), (write_error h).2⟩

theorem report_cause (dn s e : String) (c : Call) : (report dn s e c).cause = some e := by
  cases c <;> rfl

theorem MergeError.tagNames_le_one (err : MergeError) : err.tagNames.length ≤ 1 := by
  cases err <;> simp [MergeError.tagNames]

theorem MergeCommand.addExplicitFileTags_run (φ : Faults) (dn : String) (d : Tag) :
    ∀ (fts : List FileTag) (w : World) (res : Option MergeError) (w' : World),
      addExplicitFileTags φ dn d fts w = (res, w') →
      (res = none →
        Succeeded φ w (fts.map (fun ft => Call.AddExplicitFileTag ft.FileId d.Id)) w') ∧
      (∀ err, res = some err → ∃ done ft rest e, fts = done ++ ft :: rest ∧
        FailedAfter φ w (done.map (fun ft => Call.AddExplicitFileTag ft.FileId d.Id))
          (Call.AddExplicitFileTag ft.FileId d.Id) e w' ∧
        err = .couldNotAddExplicit dn ft.FileId e) := by
  intro fts
  induction fts with
  | nil =>
    intro w res w' h
    simp only [addExplicitFileTags, Prod.mk.injEq] at h
    obtain ⟨rfl, rfl⟩ := h
    exact ⟨fun _ => Succeeded.nothing φ _ _ rfl, fun err h => by cases h⟩
  | cons ft rest ih =>
    intro w res w' h
    simp only [addExplicitFileTags] at h
    split at h
    · rename_i e w1 hw
      simp only [Prod.mk.injEq] at h
      obtain ⟨rfl, rfl⟩ := h
      refine ⟨(fun h => by cases h), ?_⟩
      intro err herr
      cases herr
      exact ⟨[], ft, rest, e, rfl, write_failed hw, rfl⟩
    · rename_i u w1 hw
      have h1 := write_succeeded hw
      obtain ⟨hok, hfail⟩ := ih w1 res w' h
      refine ⟨fun hn => h1.trans (hok hn), ?_⟩
      intro err herr
      obtain ⟨done, ft', rest', e, hsplit, hf, he⟩ := hfail err herr
      exact ⟨ft :: done, ft', rest', e, by rw [hsplit]; rfl, h1.then_failed hf, he⟩

theorem MergeCommand.addImplicitFileTags_run (φ : Faults) (dn : String) (d : Tag) :
    ∀ (fts : List FileTag) (w : World) (res : Option MergeError) (w' : World),
      addImplicitFileTags φ dn d fts w = (res, w') →
      (res = none →
        Succeeded φ w (fts.map (fun ft => Call.AddImplicitFileTag ft.FileId d.Id)) w') ∧
      (∀ err, res = some err → ∃ done ft rest e, fts = done ++ ft :: rest ∧
        FailedAfter φ w (done.map (fun ft => Call.AddImplicitFileTag ft.FileId d.Id))
          (Call.AddImplicitFileTag ft.FileId d.Id) e w' ∧
        err = .couldNotAddImplicit dn ft.FileId e) := by
  intro fts
  induction fts with
  | nil =>
    intro w res w' h
    simp only [addImplicitFileTags, Prod.mk.injEq] at h
    obtain ⟨rfl, rfl⟩ := h
    exact ⟨fun _ => Succeeded.nothing φ _ _ rfl, fun err h => by cases h⟩
  | cons ft rest ih =>
    intro w res w' h
    simp only [addImplicitFileTags] at h
    split at h
    · rename_i e w1 hw
      simp only [Prod.mk.injEq] at h
      obtain ⟨rfl, rfl⟩ := h
      refine ⟨(fun h => by cases h), ?_⟩
      intro err herr
      cases herr
      exact ⟨[], ft, rest, e, rfl, write_failed hw, rfl⟩
    · rename_i u w1 hw
      have h1 := write_succeeded hw
      obtain ⟨hok, hfail⟩ := ih w1 res w' h
      refine ⟨fun hn => h1.trans (hok hn), ?_⟩
      intro err herr
      obtain ⟨done, ft', rest', e, hsplit, hf, he⟩ := hfail err herr
      exact ⟨ft :: done, ft', rest', e, by rw [hsplit]; rfl, h1.then_failed hf, he⟩

theorem MergeCommand.mergeSource_run (φ : Faults) (verbose : Bool) (dn : String) (d : Tag)
    (s : String) (w : World) (res : Option MergeError) (w' : World)
    (h : mergeSource φ verbose dn d s w = (res, w')) :
    (∀ err, res = some err → SourceFailure φ dn d s w err w') ∧
    (res = none → ∃ st, s ≠ dn ∧ w.db.tagByName s = some st ∧
      Succeeded φ w (Call.TagByName s :: sourceSteps w.db d st) w') := by
  unfold mergeSource at h
  split at h
  · rename_i hs
    simp only [Prod.mk.injEq] at h
    obtain ⟨rfl, rfl⟩ := h
    refine ⟨?_, (fun h => by cases h)⟩
    intro err he
    cases he
    exact .sameNames hs
  rename_i hne
  split at h
  · rename_i e w1 h1
    simp only [Prod.mk.injEq] at h
    obtain ⟨rfl, rfl⟩ := h
    refine ⟨?_, (fun h => by cases h)⟩
    intro err he
    cases he
    exact .lookup e _ hne (read_failed h1)
  · rename_i w1 h1
    simp only [Prod.mk.injEq] at h
    obtain ⟨rfl, rfl⟩ := h
    refine ⟨?_, (fun h => by cases h)⟩
    intro err he
    cases he
    exact .noSuchTag _ hne (read_succeeded h1) ((read_db h1).2 _ rfl).symm
  rename_i st w1 h1
  have hst : w.db.tagByName s = some st := ((read_db h1).2 _ rfl).symm
  have hw1 := (read_db h1).1
  have S1 := (read_succeeded h1).infoIf verbose ("finding files tagged '" ++ s ++ "'.")
  simp only at h
  split at h
  · rename_i e w3 h3
    simp only [Prod.mk.injEq] at h
    obtain ⟨rfl, rfl⟩ := h
    refine ⟨?_, (fun h => by cases h)⟩
    intro err he
    cases he
    have hf := S1.then_failed (read_failed h3)
    refine .step st [] (Call.ExplicitFileTagsByTagId st.Id) ((sourceSteps w.db d st).drop 1)
      e _ hne hst ?_ ?_
    · simp [sourceSteps]
    · simpa using hf
  rename_i E w3 h3
  have hE : E = w.db.fileTagsByTagId .Explicit st.Id := by
    rw [(read_db h3).2 _ rfl, infoIf_db, hw1]
  have hw3 : w3.db = w.db := by rw [(read_db h3).1, infoIf_db, hw1]
  have S3 := S1.trans (read_succeeded h3)
  split at h
  · rename_i e w4 h4
    simp only [Prod.mk.injEq] at h
    obtain ⟨rfl, rfl⟩ := h
    refine ⟨?_, (fun h => by cases h)⟩
    intro err he
    cases he
    have hf := S3.then_failed (read_failed h4)
    refine .step st [Call.ExplicitFileTagsByTagId st.Id] (Call.ImplicitFileTagsByTagId st.Id)
      ((sourceSteps w.db d st).drop 2) e _ hne hst ?_ ?_
    · simp [sourceSteps]
    · simpa using hf
  rename_i I w4 h4
  have hI : I = w.db.fileTagsByTagId .Implicit st.Id := by
    rw [(read_db h4).2 _ rfl, hw3]
  have S5 := (S3.trans (read_succeeded h4)).infoIf verbose
    ("applying tag '" ++ dn ++ "' to these files.")
  split at h
  · rename_i err w6 h6
    simp only [Prod.mk.injEq] at h
    obtain ⟨rfl, rfl⟩ := h
    refine ⟨?_, (fun h => by cases h)⟩
    intro err' he
    cases he
    obtain ⟨done, ft, rest, e, hsplit, hf6, rfl⟩ :=
      (addExplicitFileTags_run φ dn d _ _ _ _ h6).2 _ rfl
    have hf := S5.then_failed hf6
    refine .step st
      (Call.ExplicitFileTagsByTagId st.Id :: Call.ImplicitFileTagsByTagId st.Id ::
        done.map (fun ft => Call.AddExplicitFileTag ft.FileId d.Id))
      (Call.AddExplicitFileTag ft.FileId d.Id)
      (rest.map (fun ft => Call.AddExplicitFileTag ft.FileId d.Id) ++
        ((w.db.fileTagsByTagId .Implicit st.Id).map
            (fun ft => Call.AddImplicitFileTag ft.FileId d.Id) ++
          [Call.RemoveExplicitFileTagsByTagId st.Id, Call.RemoveImplicitFileTagsByTagId st.Id,
            Call.DeleteTag st.Id])) e _ hne hst ?_ ?_
    · rw [hE] at hsplit
      simp [sourceSteps, hsplit]
    · simpa using hf
  rename_i w6 h6
  have S6 := S5.trans ((addExplicitFileTags_run φ dn d _ _ _ _ h6).1 rfl)
  split at h
  · rename_i err w7 h7
    simp only [Prod.mk.injEq] at h
    obtain ⟨rfl, rfl⟩ := h
    refine ⟨?_, (fun h => by cases h)⟩
    intro err' he
    cases he
    obtain ⟨done, ft, rest, e, hsplit, hf7, rfl⟩ :=
      (addImplicitFileTags_run φ dn d _ _ _ _ h7).2 _ rfl
    have hf := S6.then_failed hf7
    refine .step st
      (Call.ExplicitFileTagsByTagId st.Id :: Call.ImplicitFileTagsByTagId st.Id ::
        ((w.db.fileTagsByTagId .Explicit st.Id).map
            (fun ft => Call.AddExplicitFileTag ft.FileId d.Id) ++
          done.map (fun ft => Call.AddImplicitFileTag ft.FileId d.Id)))
      (Call.AddImplicitFileTag ft.FileId d.Id)
      (rest.map (fun ft => Call.AddImplicitFileTag ft.FileId d.Id) ++
        [Call.RemoveExplicitFileTagsByTagId st.Id, Call.RemoveImplicitFileTagsByTagId st.Id,
          Call.DeleteTag st.Id]) e _ hne hst ?_ ?_
    · rw [hI] at hsplit
      simp [sourceSteps, hsplit]
    · rw [hE] at hf
      simpa using hf
  rename_i w7 h7
  have S8 := (S6.trans ((addImplicitFileTags_run φ dn d _ _ _ _ h7).1 rfl)).infoIf verbose
    ("untagging files '" ++ s ++ "'.")
  rw [hE, hI] at S8
  split at h
  · rename_i e w9 h9
    simp only [Prod.mk.injEq] at h
    obtain ⟨rfl, rfl⟩ := h
    refine ⟨?_, (fun h => by cases h)⟩
    intro err he
    cases he
    have hf := S8.then_failed (write_failed h9)
    refine .step st
      (Call.ExplicitFileTagsByTagId st.Id :: Call.ImplicitFileTagsByTagId st.Id ::
        ((w.db.fileTagsByTagId .Explicit st.Id).map
            (fun ft => Call.AddExplicitFileTag ft.FileId d.Id) ++
          (w.db.fileTagsByTagId .Implicit st.Id).map
            (fun ft => Call.AddImplicitFileTag ft.FileId d.Id)))
      (Call.RemoveExplicitFileTagsByTagId st.Id)
      [Call.RemoveImplicitFileTagsByTagId st.Id, Call.DeleteTag st.Id] e _ hne hst ?_ ?_
    · simp [sourceSteps]
    · simpa using hf
  rename_i u9 w9 h9
  have S9 := S8.trans (write_succeeded h9)
  split at h
  · rename_i e w10 h10
    simp only [Prod.mk.injEq] at h
    obtain ⟨rfl, rfl⟩ := h
    refine ⟨?_, (fun h => by cases h)⟩
    intro err he
    cases he
    have hf := S9.then_failed (write_failed h10)
    refine .step st
      (Call.ExplicitFileTagsByTagId st.Id :: Call.ImplicitFileTagsByTagId st.Id ::
        ((w.db.fileTagsByTagId .Explicit st.Id).map
            (fun ft => Call.AddExplicitFileTag ft.FileId d.Id) ++
          ((w.db.fileTagsByTagId .Implicit st.Id).map
              (fun ft => Call.AddImplicitFileTag ft.FileId d.Id) ++
            [Call.RemoveExplicitFileTagsByTagId st.Id])))
      (Call.RemoveImplicitFileTagsByTagId st.Id)
      [Call.DeleteTag st.Id] e _ hne hst ?_ ?_
    · simp [sourceSteps]
    · simpa using hf
  rename_i u10 w10 h10
  have S11 := (S9.trans (write_succeeded h10)).infoIf verbose
    ("deleting tag '" ++ s ++ "'.")
  split at h
  · rename_i e w12 h12
    simp only [Prod.mk.injEq] at h
    obtain ⟨rfl, rfl⟩ := h
    refine ⟨?_, (fun h => by cases h)⟩
    intro err he
    cases he
    have hf := S11.then_failed (write_failed h12)
    refine .step st
      (Call.ExplicitFileTagsByTagId st.Id :: Call.ImplicitFileTagsByTagId st.Id ::
        ((w.db.fileTagsByTagId .Explicit st.Id).map
            (fun ft => Call.AddExplicitFileTag ft.FileId d.Id) ++
          ((w.db.fileTagsByTagId .Implicit st.Id).map
              (fun ft => Call.AddImplicitFileTag ft.FileId d.Id) ++
            [Call.RemoveExplicitFileTagsByTagId st.Id,
              Call.RemoveImplicitFileTagsByTagId st.Id])))
      (Call.DeleteTag st.Id) [] e _ hne hst ?_ ?_
    · simp [sourceSteps]
    · simpa using hf
  rename_i u12 w12 h12
  simp only [Prod.mk.injEq] at h
  obtain ⟨rfl, rfl⟩ := h
  refine ⟨(fun err he => by cases he), fun _ => ⟨st, hne, hst, ?_⟩⟩
  have S12 := S11.trans (write_succeeded h12)
  simpa [sourceSteps] using S12

theorem MergeCommand.mergeSources_run (φ : Faults) (verbose : Bool) (dn : String) (d : Tag) :
    ∀ (srcs : List String) (w : World) (res : Option MergeError) (w' : World),
      mergeSources φ verbose dn d srcs w = (res, w') →
      (res = none → ∃ made, Succeeded φ w made w') ∧
      (∀ err, res = some err → ∃ done s rest w3 made, srcs = done ++ s :: rest ∧
        mergeSources φ verbose dn d done w = (none, w3) ∧ Succeeded φ w made w3 ∧
        SourceFailure φ dn d s w3 err w') := by
  intro srcs
  induction srcs with
  | nil =>
    intro w res w' h
    simp only [mergeSources, Prod.mk.injEq] at h
    obtain ⟨rfl, rfl⟩ := h
    exact ⟨fun _ => ⟨[], Succeeded.nothing φ _ _ rfl⟩, fun err h => by cases h⟩
  | cons s rest ih =>
    intro w res w' h
    simp only [mergeSources] at h
    split at h
    · rename_i err w1 h1
      simp only [Prod.mk.injEq] at h
      obtain ⟨rfl, rfl⟩ := h
      refine ⟨(fun h => by cases h), ?_⟩
      intro err' he
      cases he
      exact ⟨[], s, rest, w, [], rfl, rfl, Succeeded.nothing φ _ _ rfl,
        (mergeSource_run _ _ _ _ _ _ _ _ h1).1 _ rfl⟩
    · rename_i w1 h1
      obtain ⟨st, _, _, hs1⟩ := (mergeSource_run _ _ _ _ _ _ _ _ h1).2 rfl
      obtain ⟨hok, hfail⟩ := ih w1 res w' h
      refine ⟨?_, ?_⟩
      · intro hn
        obtain ⟨made, hm⟩ := hok hn
        exact ⟨_, hs1.trans hm⟩
      · intro err he
        obtain ⟨done, s', rest', w3, made, hsplit, hdone, hm, hrun⟩ := hfail err he
        refine ⟨s :: done, s', rest', w3, _, by rw [hsplit]; rfl, ?_, hs1.trans hm, hrun⟩
        simp only [mergeSources, h1]
        exact hdone

theorem MergeCommand.Exec_run (φ : Faults) (options : Options) (args : List String)
    (w : World) (err : MergeError) (w' : World)
    (h : Exec φ options args w = (some err, w')) :
    ExecFailure φ (HasOption options "--verbose") args w err w' := by
  unfold Exec at h
  simp only at h
  split at h
  · rename_i hlen
    simp only [Prod.mk.injEq, Option.some.injEq] at h
    obtain ⟨rfl, rfl⟩ := h
    exact .tooFew hlen
  rename_i hlen
  have hlen2 : 2 ≤ args.length := by omega
  split at h
  · rename_i e w1 h1
    simp only [Prod.mk.injEq, Option.some.injEq] at h
    obtain ⟨rfl, rfl⟩ := h
    exact .openStorage e _ hlen2 (read_failed h1)
  rename_i u w1 h1
  have S1 := read_succeeded h1
  have hw1 := (read_db h1).1
  split at h
  · rename_i e w2 h2
    simp only [Prod.mk.injEq, Option.some.injEq] at h
    obtain ⟨rfl, rfl⟩ := h
    exact .lookupDest e _ hlen2 (by simpa using S1.then_failed (read_failed h2))
  · rename_i w2 h2
    simp only [Prod.mk.injEq, Option.some.injEq] at h
    obtain ⟨rfl, rfl⟩ := h
    refine .noDest _ hlen2 (by simpa using S1.trans (read_succeeded h2)) ?_
    rw [← hw1]
    exact ((read_db h2).2 _ rfl).symm
  rename_i d w2 h2
  have hd : w.db.tagByName (destName args) = some d := by
    rw [← hw1]; exact ((read_db h2).2 _ rfl).symm
  have hw2 : w2.db = w.db := by rw [(read_db h2).1, hw1]
  obtain ⟨done, s, rest, w3, made, hsplit, hdone, hm, hrun⟩ :=
    (mergeSources_run _ _ _ _ _ _ _ _ h).2 _ rfl
  exact .source d done s rest w2 w3 w' made err hlen2 hd hsplit
    (by simpa using S1.trans (read_succeeded h2)) hw2 hdone hm hrun

theorem ExecFailure.cause_of_last {φ : Faults} {verbose : Bool} {args : List String}
    {w : World} {err : MergeError} {w' : World} (hrun : ExecFailure φ verbose args w err w') :
    ∀ e, w.calls.length < w'.calls.length → φ (w'.calls.length - 1) = some e →
      err.cause = some e := by
  intro e hlt hlast
  cases hrun with
  | tooFew => exact absurd hlt (Nat.lt_irrefl _)
  | openStorage e' _ _ hf =>
    rw [hf.last_failed] at hlast
    exact hlast
  | lookupDest e' _ _ hf =>
    rw [hf.last_failed] at hlast
    exact hlast
  | noDest _ _ hs =>
    rw [hs.last (by simp)] at hlast
    cases hlast
  | source d done s rest w2 w3 _ made _ _ _ _ h2 _ _ hmade hsrc =>
    cases hsrc with
    | sameNames =>
      rw [(h2.trans hmade).last (by simp)] at hlast
      cases hlast
    | lookup e' _ _ hf =>
      rw [hf.last_failed] at hlast
      exact hlast
    | noSuchTag _ _ hs =>
      rw [hs.last (by simp)] at hlast
      cases hlast
    | step st steps c rest' e' _ _ _ _ hf =>
      rw [hf.last_failed] at hlast
      cases hlast
      exact report_cause _ _ _ _

/-- C4 as amended: when `MergeCommand.Exec` returns an error, the sources before
some source `s` were merged completely and the run ended in the iteration of
`s` (or before any source, at the arguments, the opening or the destination).
When a store step of `s` fails with the cause `e`, the steps 1 to 7 for the tag
of `s` were made in order up to the failing one and the error is its report: it
carries `e` and one tag name, the name of `s` for a failed fetch, removal or
deletion, the destination name with the file id for a failed add.  Whenever the
last store call made failed with `e`, the error carries `e`; no error carries
two tag names. -/
theorem merge_error_names_failed_step (φ : Faults) (options : Options) (args : List String)
    (w : World) (err : MergeError)
    (h : (MergeCommand.Exec φ options args w).1 = some err) :
    ErrorNamesFailedStep φ (HasOption options "--verbose") args w err
      (MergeCommand.Exec φ options args w).2 := by
  have hrun := MergeCommand.Exec_run φ options args w err _ (Prod.ext h rfl)
  exact ⟨hrun, hrun.cause_of_last, err.tagNames_le_one⟩

/-- Witness of C4 as amended: the deletion of X fails while X is merged into C. -/
theorem merge_error_names_failed_step_witness :
    (MergeCommand.Exec (failAt 9) [] ["X", "C"] sampleWorld).1 =
      some (.couldNotDeleteTag "X" "disk failure") ∧
    ErrorNamesFailedStep (failAt 9) (HasOption [] "--verbose") ["X", "C"] sampleWorld
      (.couldNotDeleteTag "X" "disk failure")
      (MergeCommand.Exec (failAt 9) [] ["X", "C"] sampleWorld).2 :=
  ⟨by decide,
    merge_error_names_failed_step (failAt 9) [] ["X", "C"] sampleWorld _ (by decide)⟩

/-! ## The listing -/

theorem printed_append (a b : List LogLine) : printed (a ++ b) = printed a ++ printed b := by
  simp [printed, List.filterMap_append]

theorem warnings_append (a b : List LogLine) : warnings (a ++ b) = warnings a ++ warnings b := by
  simp [warnings, List.filterMap_append]

theorem printed_infoIf (verbose : Bool) (text : String) :
    printed (TagsCommand.infoIf verbose text) = [] := by
  cases verbose <;> rfl

theorem warnings_infoIf (verbose : Bool) (text : String) :
    warnings (TagsCommand.infoIf verbose text) = [] := by
  cases verbose <;> rfl

theorem TagsCommand.printed_scan_loop (verbose : Bool) (store : PathStore) (explicitOnly : Bool)
    (names : List String) :
    printed (listTagsForWorkingDirectoryLoop verbose store explicitOnly names) =
      names.filterMap (scanLine store explicitOnly) := by
  induction names with
  | nil => rfl
  | cons name rest ih =>
    simp only [listTagsForWorkingDirectoryLoop, List.filterMap_cons, scanLine, resolve]
    cases h : (if explicitOnly = true then store.ExplicitTagsForPath name
      else store.TagsForPath name) with
    | error err =>
      simp only [printed_append, printed_infoIf, ih]
      rfl
    | ok tags =>
      cases tags with
      | nil =>
        simp only [List.length_nil, if_true, printed_append, printed_infoIf, ih]
        rfl
      | cons t ts =>
        simp only [List.length_cons, Nat.succ_ne_zero, if_false, printed_append, printed_infoIf, ih]
        rfl

theorem TagsCommand.warnings_scan_loop (verbose : Bool) (store : PathStore)
    (explicitOnly : Bool) (names : List String) :
    warnings (listTagsForWorkingDirectoryLoop verbose store explicitOnly names) =
      names.filterMap (warningOf store explicitOnly) := by
  induction names with
  | nil => rfl
  | cons name rest ih =>
    simp only [listTagsForWorkingDirectoryLoop, List.filterMap_cons, warningOf, resolve]
    cases h : (if explicitOnly = true then store.ExplicitTagsForPath name
      else store.TagsForPath name) with
    | error err =>
      simp only [warnings_append, warnings_infoIf, ih]
      rfl
    | ok tags =>
      cases tags with
      | nil =>
        simp only [List.length_nil, if_true, warnings_append, warnings_infoIf, ih]
        rfl
      | cons t ts =>
        simp only [List.length_cons, Nat.succ_ne_zero, if_false, warnings_append,
          warnings_infoIf, ih]
        rfl

theorem TagsCommand.printed_paths_loop (verbose : Bool) (store : PathStore)
    (explicitOnly : Bool) (paths : List String) :
    printed (listTagsForPathsLoop verbose store explicitOnly paths) =
      paths.filterMap (pathLine store explicitOnly) := by
  induction paths with
  | nil => rfl
  | cons path rest ih =>
    simp only [listTagsForPathsLoop, List.filterMap_cons, pathLine, resolve]
    cases h : (if explicitOnly = true then store.ExplicitTagsForPath path
      else store.TagsForPath path) with
    | error err =>
      simp only [printed_append, printed_infoIf, ih]
      rfl
    | ok tags =>
      simp only [printed_append, printed_infoIf, ih]
      rfl

theorem TagsCommand.warnings_paths_loop (verbose : Bool) (store : PathStore)
    (explicitOnly : Bool) (paths : List String) :
    warnings (listTagsForPathsLoop verbose store explicitOnly paths) =
      paths.filterMap (warningOf store explicitOnly) := by
  induction paths with
  | nil => rfl
  | cons path rest ih =>
    simp only [listTagsForPathsLoop, List.filterMap_cons, warningOf, resolve]
    cases h : (if explicitOnly = true then store.ExplicitTagsForPath path
      else store.TagsForPath path) with
    | error err =>
      simp only [warnings_append, warnings_infoIf, ih]
      rfl
    | ok tags =>
      simp only [warnings_append, warnings_infoIf, ih]
      rfl

theorem stringLe_total (a b : String) : StringLe a b ∨ StringLe b a :=
  le_total a.data b.data

theorem stringLe_trans (a b c : String) (h1 : StringLe a b) (h2 : StringLe b c) :
    StringLe a c :=
  le_trans (α := List Char) h1 h2

theorem stringLe_antisymm (a b : String) (h1 : StringLe a b) (h2 : StringLe b a) : a = b :=
  String.ext (le_antisymm (α := List Char) h1 h2)

theorem sortStrings_sorted (names : List String) : (sortStrings names).Sorted StringLe :=
  @List.sorted_insertionSort _ StringLe _ ⟨stringLe_total⟩ ⟨stringLe_trans⟩ names

theorem sortStrings_perm (names : List String) : (sortStrings names).Perm names :=
  List.perm_insertionSort StringLe names

theorem sortStrings_filter (p : String → Bool) (names : List String) :
    sortStrings (names.filter p) = (sortStrings names).filter p := by
  haveI : IsAntisymm String StringLe := ⟨stringLe_antisymm⟩
  apply List.eq_of_perm_of_sorted (r := StringLe)
  · exact (sortStrings_perm _).trans ((sortStrings_perm names).filter p).symm
  · exact sortStrings_sorted _
  · exact (sortStrings_sorted names).filter p

theorem filterMap_filter_of_none {α β : Type} (p : α → Bool) (f : α → Option β)
    (h : ∀ x, p x = false → f x = none) (l : List α) :
    (l.filter p).filterMap f = l.filterMap f := by
  induction l with
  | nil => rfl
  | cons x xs ih =>
    cases hp : p x
    · rw [List.filter_cons_of_neg (by simp [hp]), List.filterMap_cons, h x hp, ih]
    · rw [List.filter_cons_of_pos (by simp [hp]), List.filterMap_cons, List.filterMap_cons, ih]

theorem scanLine_of_not_resolves (store : PathStore) (explicitOnly : Bool) (name : String)
    (h : resolves store explicitOnly name = false) : scanLine store explicitOnly name = none := by
  unfold resolves at h
  unfold scanLine
  cases hr : resolve store explicitOnly name with
  | error e => rfl
  | ok tags => rw [hr] at h; cases h

theorem warningOf_of_resolves (store : PathStore) (explicitOnly : Bool) (name : String)
    (h : resolves store explicitOnly name = true) : warningOf store explicitOnly name = none := by
  unfold resolves at h
  unfold warningOf
  cases hr : resolve store explicitOnly name with
  | error e => rw [hr] at h; cases h
  | ok tags => rfl

/-- C6: when the working directory can be listed, `listTagsForWorkingDirectory`
returns nil and prints, in ascending order of the entry names, the line
`<name>: <tags joined by spaces>` for exactly the entries that resolve to at
least one tag; the entries a (tag red), b (untracked), c (no tags) give the one
line `a: red`. -/
theorem scan_prints_tagged_entries (verbose : Bool) (store : PathStore) (explicitOnly : Bool)
    (names : List String) :
    (TagsCommand.listTagsForWorkingDirectory verbose ⟨none, .ok names⟩ store explicitOnly).1
      = none ∧
    printed
        (TagsCommand.listTagsForWorkingDirectory verbose ⟨none, .ok names⟩ store explicitOnly).2
      = (sortStrings names).filterMap (scanLine store explicitOnly) ∧
    (sortStrings names).Sorted StringLe ∧ (sortStrings names).Perm names ∧
    printed (TagsCommand.listTagsForWorkingDirectory false sampleDirectory sampleStore false).2
      = ["a: red"] :=
  ⟨rfl, TagsCommand.printed_scan_loop _ _ _ _, sortStrings_sorted _, sortStrings_perm _,
    by decide⟩

/-- C7: with two or more paths `listTags` runs `listTagsForPaths`, which returns
nil whatever fails, prints `<path>: <tags joined by spaces>` for each path that
resolves, in the order given and also when it has no tag, and warns for each
path that fails. -/
theorem multi_path_prints_each_resolved (verbose : Bool) (dir : WorkingDirectory)
    (store : PathStore) (explicitOnly : Bool) (paths : List String) (h : 2 ≤ paths.length) :
    TagsCommand.listTags verbose dir (.ok store) paths explicitOnly =
      TagsCommand.listTagsForPaths verbose store paths explicitOnly ∧
    (TagsCommand.listTagsForPaths verbose store paths explicitOnly).1 = none ∧
    printed (TagsCommand.listTagsForPaths verbose store paths explicitOnly).2 =
      paths.filterMap (pathLine store explicitOnly) ∧
    warnings (TagsCommand.listTagsForPaths verbose store paths explicitOnly).2 =
      paths.filterMap (warningOf store explicitOnly) := by
  refine ⟨?_, rfl, TagsCommand.printed_paths_loop _ _ _ _, TagsCommand.warnings_paths_loop _ _ _ _⟩
  obtain ⟨a, b, rest, rfl⟩ := MergeCommand.two_args h
  rfl

/-- Witness of C7: `tags fileX fileY` with fileY tracked but untagged prints two
lines, the second being `fileY: `. -/
theorem multi_path_prints_each_resolved_witness :
    2 ≤ ["fileX", "fileY"].length ∧
    (TagsCommand.listTags false sampleDirectory (.ok sampleStore) ["fileX", "fileY"] false =
        TagsCommand.listTagsForPaths false sampleStore ["fileX", "fileY"] false ∧
      (TagsCommand.listTagsForPaths false sampleStore ["fileX", "fileY"] false).1 = none ∧
      printed (TagsCommand.listTagsForPaths false sampleStore ["fileX", "fileY"] false).2 =
        ["fileX", "fileY"].filterMap (pathLine sampleStore false) ∧
      warnings (TagsCommand.listTagsForPaths false sampleStore ["fileX", "fileY"] false).2 =
        ["fileX", "fileY"].filterMap (warningOf sampleStore false)) ∧
    ["fileX", "fileY"].filterMap (pathLine sampleStore false) = ["fileX: red", "fileY: "] :=
  ⟨by decide,
    multi_path_prints_each_resolved false sampleDirectory sampleStore false ["fileX", "fileY"]
      (by decide),
    by decide⟩

/-- C8: with exactly one path `listTags` returns an error if and only if the
path does not resolve, and then prints no result line; when the path resolves it
prints the bare tag names in resolver order, nothing for no tags; and a path
that makes `tags p` fail does not make `tags p q` fail. -/
theorem single_path_fails_iff_unresolved (verbose : Bool) (dir : WorkingDirectory)
    (store : PathStore) (explicitOnly : Bool) (path : String) :
    ((TagsCommand.listTags verbose dir (.ok store) [path] explicitOnly).1 ≠ none ↔
      resolves store explicitOnly path = false) ∧
    (resolves store explicitOnly path = false →
      printed (TagsCommand.listTags verbose dir (.ok store) [path] explicitOnly).2 = []) ∧
    (∀ tags, resolve store explicitOnly path = .ok tags →
      (TagsCommand.listTags verbose dir (.ok store) [path] explicitOnly).1 = none ∧
      printed (TagsCommand.listTags verbose dir (.ok store) [path] explicitOnly).2 =
        tags.map Tag.Name) ∧
    (∀ q, resolves store explicitOnly path = false →
      (TagsCommand.listTags verbose dir (.ok store) [path] explicitOnly).1 ≠ none ∧
      (TagsCommand.listTags verbose dir (.ok store) [path, q] explicitOnly).1 = none) := by
  have hprint : ∀ tags : List Tag,
      printed (tags.map (fun tag => LogLine.print tag.Name)) = tags.map Tag.Name := by
    intro tags
    induction tags with
    | nil => rfl
    | cons t ts ih =>
      simp only [List.map_cons]
      rw [← ih]
      rfl
  have key : ((TagsCommand.listTags verbose dir (.ok store) [path] explicitOnly).1 ≠ none ↔
      resolves store explicitOnly path = false) ∧
    (resolves store explicitOnly path = false →
      printed (TagsCommand.listTags verbose dir (.ok store) [path] explicitOnly).2 = []) ∧
    (∀ tags, resolve store explicitOnly path = .ok tags →
      (TagsCommand.listTags verbose dir (.ok store) [path] explicitOnly).1 = none ∧
      printed (TagsCommand.listTags verbose dir (.ok store) [path] explicitOnly).2 =
        tags.map Tag.Name) := by
    simp only [TagsCommand.listTags, List.length_singleton, List.getD_cons_zero,
      TagsCommand.listTagsForPath, resolves, resolve]
    cases explicitOnly
    · simp only [Bool.false_eq_true, if_false]
      cases h : store.TagsForPath path with
      | error e => simp [printed_infoIf]
      | ok tags => simp [printed_append, printed_infoIf, hprint]
    · simp only [if_true]
      cases h : store.ExplicitTagsForPath path with
      | error e => simp [printed_infoIf]
      | ok tags => simp [printed_append, printed_infoIf, hprint]
  exact ⟨key.1, key.2.1, key.2.2, fun q h => ⟨key.1.2 h, rfl⟩⟩

/-- C9 fails as stated: the entry b does not resolve, and the scan of a, b, c
logs a warning for it that the scan of a, c does not log. -/
theorem scan_warns_about_failing_entry :
    resolves sampleStore false "b" = false ∧
    (TagsCommand.listTagsForWorkingDirectory false sampleDirectory sampleStore false).2 =
      [LogLine.print "a: red", LogLine.warn "no such file 'b'"] ∧
    (TagsCommand.listTagsForWorkingDirectory false ⟨none, .ok ["c", "a"]⟩ sampleStore false).2 =
      [LogLine.print "a: red"] ∧
    (TagsCommand.listTagsForWorkingDirectory false sampleDirectory sampleStore false).2 ≠
      (TagsCommand.listTagsForWorkingDirectory false
        ⟨none, .ok (["c", "a", "b"].filter (resolves sampleStore false))⟩ sampleStore false).2 := by
  decide

/-- C9 as amended: in directory-scan mode an entry whose resolution fails gets no
result line and one warning, the error text of its resolution, and the scan goes
on and returns nil; the result lines are those of the directory without the
failing entries, for which no warning is logged. -/
theorem scan_skips_failing_entry_with_warning (verbose : Bool) (store : PathStore)
    (explicitOnly : Bool) (names : List String) :
    (TagsCommand.listTagsForWorkingDirectory verbose ⟨none, .ok names⟩ store explicitOnly).1
      = none ∧
    printed
        (TagsCommand.listTagsForWorkingDirectory verbose ⟨none, .ok names⟩ store explicitOnly).2
      = printed (TagsCommand.listTagsForWorkingDirectory verbose
          ⟨none, .ok (names.filter (resolves store explicitOnly))⟩ store explicitOnly).2 ∧
    warnings
        (TagsCommand.listTagsForWorkingDirectory verbose ⟨none, .ok names⟩ store explicitOnly).2
      = (sortStrings names).filterMap (warningOf store explicitOnly) ∧
    warnings (TagsCommand.listTagsForWorkingDirectory verbose
        ⟨none, .ok (names.filter (resolves store explicitOnly))⟩ store explicitOnly).2 = [] := by
  refine ⟨rfl, ?_, TagsCommand.warnings_scan_loop _ _ _ _, ?_⟩
  · simp only [TagsCommand.listTagsForWorkingDirectory]
    rw [TagsCommand.printed_scan_loop, TagsCommand.printed_scan_loop, sortStrings_filter,
      filterMap_filter_of_none _ _ (scanLine_of_not_resolves store explicitOnly)]
  · simp only [TagsCommand.listTagsForWorkingDirectory]
    rw [TagsCommand.warnings_scan_loop, sortStrings_filter]
    rw [List.filterMap_eq_nil_iff]
    intro x hx
    exact warningOf_of_resolves store explicitOnly x (List.mem_filter.1 hx).2

end TMSU
